import Mathlib

/-!
Verification of the page-arena / free-list cache server
(`cache_server_defrag.h`, `cache_server_defrag_impl1.cpp`).

The state of `CacheServerDefrag` is embedded shallowly: the doubly-linked
free list becomes a `List FreeBlock` in head-to-tail order, the page array
becomes per-page flag functions plus a byte-addressed arena memory, and the
`entries` hash map becomes an association list.  All sizes are `Nat`
(`size_t` values in the source never approach `2^64` for reachable states).
-/

/-- `PAGE_SIZE = 40 * 1024` bytes, from the header. -/
def PAGE_SIZE : Nat := 40 * 1024

/-- `CACHE_SIZE = 100ULL * 1024 * 1024` bytes, from the header. -/
def CACHE_SIZE : Nat := 100 * 1024 * 1024

/-- `TOTAL_PAGES = CACHE_SIZE / PAGE_SIZE` (= 2560), from the header. -/
def TOTAL_PAGES : Nat := CACHE_SIZE / PAGE_SIZE

/-- A node of the free list: a run of `num_pages` free pages starting at
`start_page` (struct `FreeBlock`, links implicit in the list order). -/
structure FreeBlock where
  start_page : Nat
  num_pages : Nat
deriving DecidableEq, Repr

/-- One page past the end of a free block. -/
def blockEnd (b : FreeBlock) : Nat := b.start_page + b.num_pages

/-- Metadata of one stored value (struct `CacheEntry`).  The `lru_iter`
field is a C++ iterator handle into the LRU list and is not modelled; no
code under verification touches it. -/
structure CacheEntry where
  key : String
  client_id : String
  start_page : Nat
  num_pages : Nat
  data_size : Nat
  insertion_order : Nat
  visited : Bool
  reference_bit : Bool
  clock_position : Nat
deriving DecidableEq, Repr

/-- The cache-server state: arena memory (byte addressed), per-page
`is_free` and `block_start` fields, the entry table, the free list, the
`total_free_pages` counter and the FIFO insertion counter. -/
structure ServerState where
  mem : Nat → Nat
  pageIsFree : Nat → Bool
  pageBlockStart : Nat → Nat
  entries : List (String × CacheEntry)
  freeList : List FreeBlock
  total_free_pages : Nat
  fifo_counter : Nat

/-- `entries.find(key)` on the association-list model. -/
def lookupEntry : List (String × CacheEntry) → String → Option CacheEntry
  | [], _ => none
  | p :: rest, k => if p.1 = k then some p.2 else lookupEntry rest k

/-- `entries[key] = e` on the association-list model: replace the binding
if the key is present, otherwise append it. -/
def insertEntry : List (String × CacheEntry) → String → CacheEntry → List (String × CacheEntry)
  | [], k, e => [(k, e)]
  | p :: rest, k, e => if p.1 = k then (k, e) :: rest else p :: insertEntry rest k e

/-- Sum of the lengths of the extents of a free list. -/
def sumFree (l : List FreeBlock) : Nat := (l.map FreeBlock.num_pages).sum

/-- Sum of `num_pages` over an entry list. -/
def sumNp (l : List (String × CacheEntry)) : Nat := (l.map (fun p => p.2.num_pages)).sum

/-- Modelled from the spec: `readFromPages(start_page, data_size)` is
declared in the header but defined in the missing second implementation
file; per spec §4.A it returns exactly `data_size` bytes beginning at
page `start_page`. -/
def readMem (m : Nat → Nat) (start ds : Nat) : List Nat :=
  (List.range ds).map fun i => m (start * PAGE_SIZE + i)

/-- Modelled from the spec: `writeToPages(start_page, data)` is declared in
the header but defined in the missing second implementation file; per spec
§4.A it copies the bytes into the run starting at `start_page`. -/
def writeMem (m : Nat → Nat) (start : Nat) (data : List Nat) : Nat → Nat :=
  fun a =>
    if start * PAGE_SIZE ≤ a ∧ a < start * PAGE_SIZE + data.length then
      data.getD (a - start * PAGE_SIZE) 0
    else m a

/-- Setting the `is_free` flag of every page in `[start, start+np)` to `v`. -/
def markRun (f : Nat → Bool) (start np : Nat) (v : Bool) : Nat → Bool :=
  fun i => if start ≤ i ∧ i < start + np then v else f i

/-- Setting the `block_start` field of every page in `[start, start+np)`. -/
def markBlockStart (f : Nat → Nat) (start np : Nat) : Nat → Nat :=
  fun i => if start ≤ i ∧ i < start + np then start else f i

/-- `current->num_pages < best_size` where `best_size` starts at `SIZE_MAX`
(modelled by `none`) and afterwards always equals the best block's length. -/
def betterThan : Option (Nat × FreeBlock) → Nat → Bool
  | none, _ => true
  | some p, len => decide (len < p.2.num_pages)

/-- The scan loop of `findBestFitBlock`, tracking the position `i` of the
current node and the best candidate (with its position) so far.  Mirrors
the source: a block is taken when `num_pages >= n` and it beats the best
so far strictly; on an exact fit the scan stops. -/
def findBestFitFrom (n : Nat) : List FreeBlock → Nat → Option (Nat × FreeBlock) → Option (Nat × FreeBlock)
  | [], _, best => best
  | b :: rest, i, best =>
    if n ≤ b.num_pages ∧ betterThan best b.num_pages then
      if b.num_pages = n then some (i, b)
      else findBestFitFrom n rest (i + 1) (some (i, b))
    else findBestFitFrom n rest (i + 1) best

/-- `CacheServerDefrag::findBestFitBlock` (the returned pointer is modelled
as the position of the block in the list together with its value). -/
def findBestFitBlock (l : List FreeBlock) (n : Nat) : Option (Nat × FreeBlock) :=
  findBestFitFrom n l 0 none

/-- `CacheServerDefrag::splitBlock` acting on the block at position `i`,
together with `removeFromFreeList` which it calls in the exact-fit case.
Exact fit unlinks the block and decrements `total_free_pages` by its
length; otherwise the block is mutated in place (`start_page += n`,
`num_pages -= n`) and — as in the source — the counter is not touched. -/
def splitBlockAt : List FreeBlock → Nat → Nat → Nat → List FreeBlock × Nat
  | [], _, _, tfp => ([], tfp)
  | b :: rest, 0, n, tfp =>
    if b.num_pages = n then (rest, tfp - b.num_pages)
    else ({ start_page := b.start_page + n, num_pages := b.num_pages - n } :: rest, tfp)
  | b :: rest, i + 1, n, tfp =>
    let r := splitBlockAt rest i n tfp
    (b :: r.1, r.2)

/-- The coalescing step of `coalesceAdjacentBlocks`: merge a block with the
head of the following list when they are address-adjacent (used both for
the next-merge and, with the predecessor as first argument, the
prev-merge). -/
def mergeNext (b : FreeBlock) : List FreeBlock → List FreeBlock
  | [] => [b]
  | c :: rest =>
    if blockEnd b = c.start_page then
      { start_page := b.start_page, num_pages := b.num_pages + c.num_pages } :: rest
    else b :: c :: rest

/-- `CacheServerDefrag::addToFreeList` restricted to the list: insert the
new block after every node whose `start_page` is `≤` its own (head
insertion exactly when `start_page < head.start_page`, as in the source),
then coalesce with the successor first and the predecessor second. -/
def insertFreeList (b : FreeBlock) : List FreeBlock → List FreeBlock
  | [] => [b]
  | c :: rest =>
    if b.start_page < c.start_page then
      mergeNext b (c :: rest)
    else
      match rest with
      | [] => mergeNext c [b]
      | d :: rest2 =>
        if b.start_page < d.start_page then
          mergeNext c (mergeNext b (d :: rest2))
        else c :: insertFreeList b (d :: rest2)

/-- `CacheServerDefrag::addToFreeList` on the state: insert (with
coalescing) and increase `total_free_pages` by the length. -/
def addToFreeList (s : ServerState) (start np : Nat) : ServerState :=
  { s with
    freeList := insertFreeList { start_page := start, num_pages := np } s.freeList,
    total_free_pages := s.total_free_pages + np }

/-- `CacheServerDefrag::freePages`. -/
def freePages (s : ServerState) (key : String) : ServerState :=
  match lookupEntry s.entries key with
  | none => s
  | some e =>
    addToFreeList
      { s with pageIsFree := markRun s.pageIsFree e.start_page e.num_pages true }
      e.start_page e.num_pages

/-- `CacheServerDefrag::calculateRequiredPages`. -/
def calculateRequiredPages (data_size : Nat) : Nat :=
  (data_size + PAGE_SIZE - 1) / PAGE_SIZE

/-- Insertion of one entry in `start_page` order (entries with a smaller
or equal start stay in front), the comparator of the `std::sort` call in
`compactMemory`. -/
def sortedInsert (p : String × CacheEntry) : List (String × CacheEntry) → List (String × CacheEntry)
  | [] => [p]
  | q :: rest =>
    if p.2.start_page < q.2.start_page then p :: q :: rest else q :: sortedInsert p rest

/-- The `std::sort` by ascending `start_page` in `compactMemory`. -/
def sortByStart (l : List (String × CacheEntry)) : List (String × CacheEntry) :=
  l.foldr sortedInsert []

/-- Accumulator of the relocation loop of `compactMemory`. -/
structure CompactAcc where
  mem : Nat → Nat
  pageIsFree : Nat → Bool
  pageBlockStart : Nat → Nat
  entries : List (String × CacheEntry)
  cursor : Nat

/-- One iteration of the relocation loop of `compactMemory`: if the entry
is not already at the cursor, read its bytes, write them at the cursor and
update its table binding; in all cases mark the destination run used and
advance the cursor by `num_pages`. -/
def compactStep (acc : CompactAcc) (p : String × CacheEntry) : CompactAcc :=
  let e := p.2
  let acc1 :=
    if e.start_page ≠ acc.cursor then
      { acc with
        mem := writeMem acc.mem acc.cursor (readMem acc.mem e.start_page e.data_size),
        entries := insertEntry acc.entries p.1 { e with start_page := acc.cursor } }
    else acc
  { acc1 with
    pageIsFree := markRun acc1.pageIsFree acc.cursor e.num_pages false,
    pageBlockStart := markBlockStart acc1.pageBlockStart acc.cursor e.num_pages,
    cursor := acc.cursor + e.num_pages }

/-- The relocation loop of `compactMemory`: fold `compactStep` over the
live entries sorted by ascending `start_page`, starting from the original
state with the cursor at page 0. -/
def compactAux (s : ServerState) : CompactAcc :=
  (sortByStart s.entries).foldl compactStep
    { mem := s.mem, pageIsFree := s.pageIsFree, pageBlockStart := s.pageBlockStart,
      entries := s.entries, cursor := 0 }

/-- `CacheServerDefrag::compactMemory`: sort the live entries by ascending
`start_page`, destroy the free list, relocate every entry to the packed
position, and finish with a single free block at the high end when pages
remain. -/
def compactMemory (s : ServerState) : ServerState :=
  let a := compactAux s
  if a.cursor < TOTAL_PAGES then
    { mem := a.mem,
      pageIsFree := markRun a.pageIsFree a.cursor (TOTAL_PAGES - a.cursor) true,
      pageBlockStart := a.pageBlockStart,
      entries := a.entries,
      freeList := [{ start_page := a.cursor, num_pages := TOTAL_PAGES - a.cursor }],
      total_free_pages := TOTAL_PAGES - a.cursor,
      fifo_counter := s.fifo_counter }
  else
    { mem := a.mem, pageIsFree := a.pageIsFree, pageBlockStart := a.pageBlockStart,
      entries := a.entries, freeList := [], total_free_pages := 0,
      fifo_counter := s.fifo_counter }

/-- The free-list scan of `getFragmentationStats`, returning the number of
blocks and the largest block length (accumulated exactly as in the
source loop). -/
def fragScan : List FreeBlock → Nat → Nat → Nat × Nat
  | [], cnt, lg => (cnt, lg)
  | b :: rest, cnt, lg =>
    fragScan rest (cnt + 1) (if lg < b.num_pages then b.num_pages else lg)

/-- `FragmentationStats` (the floating-point `fragmentation_ratio` field is
derived output only and is not modelled). -/
structure FragmentationStats where
  total_free_pages : Nat
  largest_free_block : Nat
  num_free_blocks : Nat
deriving DecidableEq, Repr

/-- `CacheServerDefrag::getFragmentationStats`. -/
def getFragmentationStats (s : ServerState) : FragmentationStats :=
  let r := fragScan s.freeList 0 0
  { total_free_pages := s.total_free_pages, largest_free_block := r.2, num_free_blocks := r.1 }

/-- `CacheServerDefrag::defragment`: compact, then report whether the
largest free block now covers the request. -/
def defragment (s : ServerState) (required_pages : Nat) : ServerState × Bool :=
  let s1 := compactMemory s
  (s1, decide (required_pages ≤ (getFragmentationStats s1).largest_free_block))

/-- The commit part of `allocatePages` (lines 335-358): split the chosen
block, mark the pages used, and create the entry (fresh
`insertion_order`, cleared policy bits). -/
def commitAlloc (s : ServerState) (i : Nat) (blk : FreeBlock) (required : Nat)
    (key client_id : String) (data_size : Nat) : ServerState :=
  let start := blk.start_page
  let r := splitBlockAt s.freeList i required s.total_free_pages
  { s with
    freeList := r.1,
    total_free_pages := r.2,
    pageIsFree := markRun s.pageIsFree start required false,
    pageBlockStart := markBlockStart s.pageBlockStart start required,
    entries := insertEntry s.entries key
      { key := key, client_id := client_id, start_page := start, num_pages := required,
        data_size := data_size, insertion_order := s.fifo_counter,
        visited := false, reference_bit := false, clock_position := 0 },
    fifo_counter := s.fifo_counter + 1 }

/-- `CacheServerDefrag::allocatePages`.  `evictFn` stands for
`CacheServerDefrag::evict`, which is declared in the header but defined in
the missing second implementation file; the control flow here quantifies
over it.  The early `return false` after a failed eviction is modelled by
carrying the mutated state to the final `none` case. -/
def allocatePages (evictFn : Nat → ServerState → ServerState × Bool)
    (s : ServerState) (key : String) (data_size : Nat) (client_id : String) :
    ServerState × Bool :=
  let required := calculateRequiredPages data_size
  let r :=
    match findBestFitBlock s.freeList required with
    | some ib => (s, some ib)
    | none =>
      if required ≤ s.total_free_pages then
        let d := defragment s required
        if d.2 then (d.1, findBestFitBlock d.1.freeList required)
        else
          let ev := evictFn required d.1
          if ev.2 then (ev.1, findBestFitBlock ev.1.freeList required)
          else (ev.1, none)
      else
        let ev := evictFn required s
        if ev.2 then (ev.1, findBestFitBlock ev.1.freeList required)
        else (ev.1, none)
  match r.2 with
  | none => (r.1, false)
  | some ib => (commitAlloc r.1 ib.1 ib.2 required key client_id data_size, true)

/-- The state right after `initializeCache()`: zeroed arena, every page
free, no entries, one free block covering the whole arena. -/
def initState : ServerState :=
  { mem := fun _ => 0,
    pageIsFree := fun _ => true,
    pageBlockStart := fun _ => 0,
    entries := [],
    freeList := [{ start_page := 0, num_pages := TOTAL_PAGES }],
    total_free_pages := TOTAL_PAGES,
    fifo_counter := 0 }

/-- An eviction procedure that never frees anything (used to exercise
paths that do not reach eviction). -/
def noEvict : Nat → ServerState → ServerState × Bool := fun _ s => (s, false)

/-- The set of pages covered by the extents of a free list. -/
def Covers : List FreeBlock → Nat → Prop
  | [], _ => False
  | b :: rest, i => (b.start_page ≤ i ∧ i < blockEnd b) ∨ Covers rest i

theorem covers_cons (b : FreeBlock) (l : List FreeBlock) (i : Nat) :
    Covers (b :: l) i ↔ (b.start_page ≤ i ∧ i < blockEnd b) ∨ Covers l i := Iff.rfl

/-- The separation relation of a sorted, coalesced free list: the earlier
extent ends strictly before the later one starts. -/
def SepExt (a b : FreeBlock) : Prop := blockEnd a < b.start_page

theorem mergeNext_covers (b : FreeBlock) (l : List FreeBlock) (i : Nat) :
    Covers (mergeNext b l) i ↔ (b.start_page ≤ i ∧ i < blockEnd b) ∨ Covers l i := by
  cases l with
  | nil => simp [mergeNext, Covers]
  | cons c rest =>
    simp only [mergeNext]
    by_cases h : blockEnd b = c.start_page
    · rw [if_pos h]
      simp only [Covers, blockEnd] at h ⊢
      constructor
      · rintro (⟨h1, h2⟩ | hx)
        · by_cases h3 : i < b.start_page + b.num_pages
          · exact Or.inl ⟨h1, h3⟩
          · exact Or.inr (Or.inl ⟨by omega, by omega⟩)
        · exact Or.inr (Or.inr hx)
      · rintro (⟨h1, h2⟩ | ⟨h1, h2⟩ | hx)
        · exact Or.inl ⟨h1, by omega⟩
        · exact Or.inl ⟨by omega, by omega⟩
        · exact Or.inr hx
    · rw [if_neg h]
      rfl

/-- Unfolding lemma: head insertion happens exactly when the new block
starts before the old head. -/
theorem insertFreeList_cons_lt (b c : FreeBlock) (rest : List FreeBlock)
    (h : b.start_page < c.start_page) :
    insertFreeList b (c :: rest) = mergeNext b (c :: rest) := by
  cases rest <;> simp [insertFreeList, if_pos h]

theorem insertFreeList_covers (b : FreeBlock) (l : List FreeBlock) (i : Nat) :
    Covers (insertFreeList b l) i ↔ (b.start_page ≤ i ∧ i < blockEnd b) ∨ Covers l i := by
  induction l with
  | nil => simp [insertFreeList, Covers]
  | cons c rest ih =>
    by_cases h1 : b.start_page < c.start_page
    · rw [insertFreeList_cons_lt b c rest h1]
      exact mergeNext_covers b (c :: rest) i
    · cases rest with
      | nil =>
        simp only [insertFreeList, if_neg h1]
        rw [mergeNext_covers]
        simp only [Covers]
        tauto
      | cons d rest2 =>
        simp only [insertFreeList, if_neg h1]
        by_cases h2 : b.start_page < d.start_page
        · rw [if_pos h2, mergeNext_covers, mergeNext_covers]
          simp only [covers_cons]
          tauto
        · rw [if_neg h2]
          simp only [covers_cons, ih]
          tauto

/-- Replacing the head of a separated list by a block that ends no later
keeps the list separated. -/
theorem chain_head_mono (y x : FreeBlock) (t : List FreeBlock)
    (h : List.Chain' SepExt (x :: t)) (hle : blockEnd y ≤ blockEnd x) :
    List.Chain' SepExt (y :: t) := by
  cases t with
  | nil => simp
  | cons e t2 =>
    rw [List.chain'_cons] at h ⊢
    refine ⟨?_, h.2⟩
    have := h.1
    unfold SepExt at *
    omega

/-- When the new block is not inserted at the head, the head keeps its
`start_page` (it is the old head or the old head grown by a merge). -/
theorem insertFreeList_head (b c : FreeBlock) (rest : List FreeBlock)
    (h : ¬ b.start_page < c.start_page) :
    ∃ h0 tail, insertFreeList b (c :: rest) = h0 :: tail ∧ h0.start_page = c.start_page := by
  cases rest with
  | nil =>
    simp only [insertFreeList, if_neg h, mergeNext]
    by_cases h2 : blockEnd c = b.start_page
    · rw [if_pos h2]; exact ⟨_, _, rfl, rfl⟩
    · rw [if_neg h2]; exact ⟨_, _, rfl, rfl⟩
  | cons d rest2 =>
    simp only [insertFreeList, if_neg h]
    by_cases h2 : b.start_page < d.start_page
    · rw [if_pos h2]
      by_cases h3 : blockEnd b = d.start_page
      · simp only [mergeNext, if_pos h3]
        by_cases h4 : blockEnd c = b.start_page
        · rw [if_pos h4]; exact ⟨_, _, rfl, rfl⟩
        · rw [if_neg h4]; exact ⟨_, _, rfl, rfl⟩
      · simp only [mergeNext, if_neg h3]
        by_cases h4 : blockEnd c = b.start_page
        · rw [if_pos h4]; exact ⟨_, _, rfl, rfl⟩
        · rw [if_neg h4]; exact ⟨_, _, rfl, rfl⟩
    · rw [if_neg h2]; exact ⟨_, _, rfl, rfl⟩

/-- Core preservation lemma for `addToFreeList`: inserting a nonempty run
disjoint from a sorted-and-coalesced free list yields a
sorted-and-coalesced free list of nonempty extents. -/
theorem insertFreeList_wf (b : FreeBlock) (l : List FreeBlock)
    (hchain : List.Chain' SepExt l) (hpos : ∀ c ∈ l, 1 ≤ c.num_pages)
    (hb : 1 ≤ b.num_pages)
    (hdisj : ∀ c ∈ l, blockEnd b ≤ c.start_page ∨ blockEnd c ≤ b.start_page) :
    List.Chain' SepExt (insertFreeList b l) ∧ ∀ c ∈ insertFreeList b l, 1 ≤ c.num_pages := by
  induction l with
  | nil =>
    refine ⟨by simp [insertFreeList], ?_⟩
    intro c hc
    simp only [insertFreeList, List.mem_singleton] at hc
    subst hc
    exact hb
  | cons c rest ih =>
    have hc1 : 1 ≤ c.num_pages := hpos c (List.mem_cons_self c rest)
    by_cases h1 : b.start_page < c.start_page
    · have hbc : blockEnd b ≤ c.start_page := by
        rcases hdisj c (List.mem_cons_self c rest) with h | h
        · exact h
        · exfalso; unfold blockEnd at h; omega
      rw [insertFreeList_cons_lt b c rest h1]
      simp only [mergeNext]
      by_cases h2 : blockEnd b = c.start_page
      · rw [if_pos h2]
        refine ⟨?_, ?_⟩
        · refine chain_head_mono _ c rest hchain ?_
          show b.start_page + (b.num_pages + c.num_pages) ≤ c.start_page + c.num_pages
          unfold blockEnd at h2
          omega
        · intro x hx
          rcases List.mem_cons.mp hx with h | h
          · subst h; simp; omega
          · exact hpos x (List.mem_cons_of_mem _ h)
      · rw [if_neg h2]
        refine ⟨List.chain'_cons.mpr ⟨?_, hchain⟩, ?_⟩
        · unfold SepExt; omega
        · intro x hx
          rcases List.mem_cons.mp hx with h | h
          · subst h; exact hb
          · exact hpos x h
    · have hcb : blockEnd c ≤ b.start_page := by
        rcases hdisj c (List.mem_cons_self c rest) with h | h
        · exfalso; unfold blockEnd at h; omega
        · exact h
      cases rest with
      | nil =>
        simp only [insertFreeList, if_neg h1, mergeNext]
        by_cases h2 : blockEnd c = b.start_page
        · rw [if_pos h2]
          refine ⟨by simp, ?_⟩
          intro x hx
          simp only [List.mem_singleton] at hx
          subst hx; simp; omega
        · rw [if_neg h2]
          refine ⟨List.chain'_cons.mpr ⟨?_, by simp⟩, ?_⟩
          · unfold SepExt; omega
          · intro x hx
            rcases List.mem_cons.mp hx with h | h
            · subst h; exact hc1
            · simp only [List.mem_singleton] at h; subst h; exact hb
      | cons d rest2 =>
        simp only [insertFreeList, if_neg h1]
        have hchain2 : List.Chain' SepExt (d :: rest2) := (List.chain'_cons.mp hchain).2
        have hcd : SepExt c d := (List.chain'_cons.mp hchain).1
        have hd1 : 1 ≤ d.num_pages :=
          hpos d (List.mem_cons_of_mem _ (List.mem_cons_self d rest2))
        by_cases h2 : b.start_page < d.start_page
        · have hbd : blockEnd b ≤ d.start_page := by
            rcases hdisj d (List.mem_cons_of_mem _ (List.mem_cons_self d rest2)) with h | h
            · exact h
            · exfalso; unfold blockEnd at h; omega
          rw [if_pos h2]
          by_cases h3 : blockEnd b = d.start_page
          · -- inner merge with d
            simp only [mergeNext, if_pos h3]
            have hinner : List.Chain' SepExt
                ({ start_page := b.start_page, num_pages := b.num_pages + d.num_pages } :: rest2) := by
              refine chain_head_mono _ d rest2 hchain2 ?_
              unfold blockEnd at *
              simp
              omega
            by_cases h4 : blockEnd c = b.start_page
            · simp only [if_pos (show blockEnd c =
                ({ start_page := b.start_page, num_pages := b.num_pages + d.num_pages } :
                  FreeBlock).start_page from h4)]
              refine ⟨?_, ?_⟩
              · refine chain_head_mono _ _ rest2 hinner ?_
                unfold blockEnd at *
                simp
                omega
              · intro x hx
                rcases List.mem_cons.mp hx with h | h
                · subst h; simp; omega
                · exact hpos x (List.mem_cons_of_mem _ (List.mem_cons_of_mem _ h))
            · simp only [if_neg (show ¬ blockEnd c =
                ({ start_page := b.start_page, num_pages := b.num_pages + d.num_pages } :
                  FreeBlock).start_page from h4)]
              refine ⟨List.chain'_cons.mpr ⟨?_, hinner⟩, ?_⟩
              · unfold SepExt; simp; omega
              · intro x hx
                rcases List.mem_cons.mp hx with h | h
                · subst h; exact hc1
                · rcases List.mem_cons.mp h with h5 | h5
                  · subst h5; simp; omega
                  · exact hpos x (List.mem_cons_of_mem _ (List.mem_cons_of_mem _ h5))
          · -- inner no merge
            simp only [mergeNext, if_neg h3]
            have hinner : List.Chain' SepExt (b :: d :: rest2) :=
              List.chain'_cons.mpr ⟨by unfold SepExt; omega, hchain2⟩
            by_cases h4 : blockEnd c = b.start_page
            · rw [if_pos h4]
              refine ⟨?_, ?_⟩
              · refine chain_head_mono _ b (d :: rest2) hinner ?_
                unfold blockEnd at *
                simp
                omega
              · intro x hx
                rcases List.mem_cons.mp hx with h | h
                · subst h; simp; omega
                · exact hpos x (List.mem_cons_of_mem _ h)
            · rw [if_neg h4]
              refine ⟨List.chain'_cons.mpr ⟨?_, hinner⟩, ?_⟩
              · unfold SepExt; omega
              · intro x hx
                rcases List.mem_cons.mp hx with h | h
                · subst h; exact hc1
                · rcases List.mem_cons.mp h with h5 | h5
                  · subst h5; exact hb
                  · exact hpos x (List.mem_cons_of_mem _ h5)
        · rw [if_neg h2]
          have hres := ih hchain2
            (fun x hx => hpos x (List.mem_cons_of_mem _ hx))
            (fun x hx => hdisj x (List.mem_cons_of_mem _ hx))
          rcases insertFreeList_head b d rest2 h2 with ⟨h0, tail, heq, hstart⟩
          refine ⟨?_, ?_⟩
          · rw [heq]
            rw [heq] at hres
            refine List.chain'_cons.mpr ⟨?_, hres.1⟩
            unfold SepExt at *
            omega
          · intro x hx
            rcases List.mem_cons.mp hx with h | h
            · subst h; exact hc1
            · exact hres.2 x h

instance : DecidableRel SepExt :=
  fun a b => inferInstanceAs (Decidable (blockEnd a < b.start_page))

/-- C7.  If the free list is sorted and coalesced (adjacent extents `a`
then `b` satisfy `a.start + a.len < b.start` strictly, extents nonempty)
then `addToFreeList` of a nonempty run disjoint from every extent yields
again a sorted and coalesced free list — the run is placed at its sorted
position and merged with its address-adjacent neighbours — and the
resulting extents cover exactly the old free pages plus the new run. -/
theorem insert_free_keeps_sorted_coalesced (l : List FreeBlock) (s len : Nat)
    (hchain : List.Chain' SepExt l)
    (hpos : ∀ b ∈ l, 1 ≤ b.num_pages)
    (hlen : 1 ≤ len)
    (hdisj : ∀ b ∈ l, s + len ≤ b.start_page ∨ blockEnd b ≤ s) :
    List.Chain' SepExt (insertFreeList { start_page := s, num_pages := len } l) ∧
    (∀ b ∈ insertFreeList { start_page := s, num_pages := len } l, 1 ≤ b.num_pages) ∧
    (∀ i, Covers (insertFreeList { start_page := s, num_pages := len } l) i ↔
        Covers l i ∨ (s ≤ i ∧ i < s + len)) := by
  have hw := insertFreeList_wf { start_page := s, num_pages := len } l hchain hpos hlen
    (fun c hc => hdisj c hc)
  refine ⟨hw.1, hw.2, ?_⟩
  intro i
  rw [insertFreeList_covers]
  show (s ≤ i ∧ i < s + len) ∨ Covers l i ↔ Covers l i ∨ (s ≤ i ∧ i < s + len)
  exact or_comm

/-- A two-extent free list with a one-page hole between the extents. -/
def sampleFreeList : List FreeBlock :=
  [{ start_page := 0, num_pages := 2 }, { start_page := 5, num_pages := 3 }]

/-- Witness for C7: inserting the run `[2, 5)` into `[(0,2),(5,3)]` (it
fills the hole and coalesces with both neighbours). -/
theorem insert_free_keeps_sorted_coalesced_witness :
    List.Chain' SepExt sampleFreeList ∧
    (∀ b ∈ sampleFreeList, 1 ≤ b.num_pages) ∧
    (1 ≤ 3) ∧
    (∀ b ∈ sampleFreeList, 2 + 3 ≤ b.start_page ∨ blockEnd b ≤ 2) ∧
    (List.Chain' SepExt (insertFreeList { start_page := 2, num_pages := 3 } sampleFreeList) ∧
     (∀ b ∈ insertFreeList { start_page := 2, num_pages := 3 } sampleFreeList, 1 ≤ b.num_pages) ∧
     (∀ i, Covers (insertFreeList { start_page := 2, num_pages := 3 } sampleFreeList) i ↔
         Covers sampleFreeList i ∨ (2 ≤ i ∧ i < 2 + 3))) :=
  ⟨List.chain'_pair.mpr (by decide), by decide, by decide, by decide,
   insert_free_keeps_sorted_coalesced sampleFreeList 2 3
     (List.chain'_pair.mpr (by decide)) (by decide) (by decide) (by decide)⟩

/-- C10.  Frame condition of `freePages`: an absent key leaves the state
unchanged; a present key marks exactly the entry's run free, inserts that
run into the free list (the covered free pages grow by exactly that run),
adds the run length to `total_free_pages`, and leaves the entry table,
the arena bytes, the `block_start` fields, the FIFO counter and every
other page flag untouched. -/
theorem freePages_frame (s : ServerState) (key : String) :
    (lookupEntry s.entries key = none → freePages s key = s) ∧
    (∀ e, lookupEntry s.entries key = some e →
      (freePages s key).entries = s.entries ∧
      (freePages s key).mem = s.mem ∧
      (freePages s key).pageBlockStart = s.pageBlockStart ∧
      (freePages s key).fifo_counter = s.fifo_counter ∧
      (freePages s key).total_free_pages = s.total_free_pages + e.num_pages ∧
      (∀ i, e.start_page ≤ i → i < e.start_page + e.num_pages →
          (freePages s key).pageIsFree i = true) ∧
      (∀ i, i < e.start_page ∨ e.start_page + e.num_pages ≤ i →
          (freePages s key).pageIsFree i = s.pageIsFree i) ∧
      (∀ i, Covers (freePages s key).freeList i ↔
          Covers s.freeList i ∨ (e.start_page ≤ i ∧ i < e.start_page + e.num_pages))) := by
  constructor
  · intro h
    simp [freePages, h]
  · intro e he
    simp only [freePages, he, addToFreeList]
    refine ⟨by trivial, by trivial, by trivial, by trivial, by trivial, ?_, ?_, ?_⟩
    · intro i h1 h2
      simp [markRun, h1, h2]
    · intro i h
      show markRun s.pageIsFree e.start_page e.num_pages true i = s.pageIsFree i
      unfold markRun
      rw [if_neg (by omega)]
    · intro i
      rw [insertFreeList_covers]
      show (e.start_page ≤ i ∧ i < e.start_page + e.num_pages) ∨ Covers s.freeList i ↔
        Covers s.freeList i ∨ (e.start_page ≤ i ∧ i < e.start_page + e.num_pages)
      exact or_comm

/-- A live entry used by concrete witness states. -/
def sampleEntryA : CacheEntry :=
  { key := "a", client_id := "o", start_page := 5, num_pages := 2, data_size := 3,
    insertion_order := 0, visited := false, reference_bit := false, clock_position := 0 }

/-- A small concrete state: one live entry at pages `[5, 7)` and one free
extent `[0, 2)`. -/
def sampleState : ServerState :=
  { mem := fun _ => 0,
    pageIsFree := fun i => decide (i < 2),
    pageBlockStart := fun _ => 0,
    entries := [("a", sampleEntryA)],
    freeList := [{ start_page := 0, num_pages := 2 }],
    total_free_pages := 2,
    fifo_counter := 1 }

/-- Witness for C10 at `sampleState` and its live key. -/
theorem freePages_frame_witness :
    lookupEntry sampleState.entries "a" = some sampleEntryA ∧
    ((freePages sampleState "a").entries = sampleState.entries ∧
     (freePages sampleState "a").mem = sampleState.mem ∧
     (freePages sampleState "a").pageBlockStart = sampleState.pageBlockStart ∧
     (freePages sampleState "a").fifo_counter = sampleState.fifo_counter ∧
     (freePages sampleState "a").total_free_pages
        = sampleState.total_free_pages + sampleEntryA.num_pages ∧
     (∀ i, sampleEntryA.start_page ≤ i → i < sampleEntryA.start_page + sampleEntryA.num_pages →
         (freePages sampleState "a").pageIsFree i = true) ∧
     (∀ i, i < sampleEntryA.start_page ∨ sampleEntryA.start_page + sampleEntryA.num_pages ≤ i →
         (freePages sampleState "a").pageIsFree i = sampleState.pageIsFree i) ∧
     (∀ i, Covers (freePages sampleState "a").freeList i ↔
         Covers sampleState.freeList i ∨
           (sampleEntryA.start_page ≤ i ∧ i < sampleEntryA.start_page + sampleEntryA.num_pages))) :=
  ⟨by decide, (freePages_frame sampleState "a").2 sampleEntryA (by decide)⟩

/-- Keep the earlier block on a tie, the strictly smaller one otherwise. -/
def pickBetter (b : FreeBlock) (o : Option FreeBlock) : Option FreeBlock :=
  match o with
  | none => some b
  | some c => if c.num_pages < b.num_pages then some c else some b

/-- Reference best-fit: among the extents with `len ≥ n`, the one with the
smallest length, earliest in the list on ties. -/
def bestFitSpec (n : Nat) : List FreeBlock → Option FreeBlock
  | [] => none
  | b :: rest =>
    if n ≤ b.num_pages then pickBetter b (bestFitSpec n rest) else bestFitSpec n rest

/-- Merge an accumulated best candidate (which came earlier in the scan)
with the best of the remaining list: the earlier one wins ties. -/
def combineBest (o1 o2 : Option FreeBlock) : Option FreeBlock :=
  match o1 with
  | none => o2
  | some b =>
    match o2 with
    | none => some b
    | some c => if c.num_pages < b.num_pages then some c else some b

theorem pickBetter_none (b : FreeBlock) : pickBetter b none = some b := rfl

theorem pickBetter_some (b c : FreeBlock) :
    pickBetter b (some c) = if c.num_pages < b.num_pages then some c else some b := rfl

theorem combineBest_none (o : Option FreeBlock) : combineBest none o = o := rfl

theorem combineBest_some_none (b : FreeBlock) : combineBest (some b) none = some b := rfl

theorem combineBest_some_some (b c : FreeBlock) :
    combineBest (some b) (some c) = if c.num_pages < b.num_pages then some c else some b := rfl

theorem bestFitSpec_some_le (n : Nat) (l : List FreeBlock) (c : FreeBlock)
    (h : bestFitSpec n l = some c) : n ≤ c.num_pages := by
  induction l with
  | nil => simp [bestFitSpec] at h
  | cons b rest ih =>
    simp only [bestFitSpec] at h
    by_cases h1 : n ≤ b.num_pages
    · rw [if_pos h1] at h
      cases hs : bestFitSpec n rest with
      | none =>
        rw [hs, pickBetter_none] at h
        have hbc : b = c := Option.some.inj h
        subst hbc
        exact h1
      | some d =>
        rw [hs, pickBetter_some] at h
        by_cases h4 : d.num_pages < b.num_pages
        · rw [if_pos h4] at h
          have hdc : d = c := Option.some.inj h
          subst hdc
          exact ih hs
        · rw [if_neg h4] at h
          have hbc : b = c := Option.some.inj h
          subst hbc
          exact h1
    · rw [if_neg h1] at h
      exact ih h

theorem bestFitSpec_none_iff (n : Nat) (l : List FreeBlock) :
    bestFitSpec n l = none ↔ ∀ b ∈ l, b.num_pages < n := by
  induction l with
  | nil => simp [bestFitSpec]
  | cons b rest ih =>
    simp only [bestFitSpec]
    by_cases h1 : n ≤ b.num_pages
    · rw [if_pos h1]
      constructor
      · intro h
        exfalso
        cases hs : bestFitSpec n rest with
        | none => rw [hs, pickBetter_none] at h; exact Option.noConfusion h
        | some d =>
          rw [hs, pickBetter_some] at h
          by_cases h4 : d.num_pages < b.num_pages
          · rw [if_pos h4] at h; exact Option.noConfusion h
          · rw [if_neg h4] at h; exact Option.noConfusion h
      · intro h
        exact absurd h1 (by have := h b (List.mem_cons_self b rest); omega)
    · rw [if_neg h1]
      rw [ih]
      constructor
      · intro h x hx
        rcases List.mem_cons.mp hx with hx | hx
        · subst hx; omega
        · exact h x hx
      · intro h x hx
        exact h x (List.mem_cons_of_mem _ hx)

theorem bestFitSpec_min (n : Nat) (l : List FreeBlock) :
    ∀ c, bestFitSpec n l = some c →
    ∀ d ∈ l, n ≤ d.num_pages → c.num_pages ≤ d.num_pages := by
  induction l with
  | nil => intro c h; simp [bestFitSpec] at h
  | cons b rest ih =>
    intro c h d hd hdn
    simp only [bestFitSpec] at h
    by_cases h1 : n ≤ b.num_pages
    · rw [if_pos h1] at h
      cases hs : bestFitSpec n rest with
      | none =>
        rw [hs, pickBetter_none] at h
        have hbc : b = c := Option.some.inj h
        subst hbc
        rcases List.mem_cons.mp hd with hd | hd
        · subst hd; exact le_refl _
        · exact absurd hdn (by have := (bestFitSpec_none_iff n rest).mp hs d hd; omega)
      | some e =>
        rw [hs, pickBetter_some] at h
        by_cases h4 : e.num_pages < b.num_pages
        · rw [if_pos h4] at h
          have hec : e = c := Option.some.inj h
          subst hec
          rcases List.mem_cons.mp hd with hd | hd
          · subst hd; omega
          · exact ih _ hs d hd hdn
        · rw [if_neg h4] at h
          have hbc : b = c := Option.some.inj h
          subst hbc
          rcases List.mem_cons.mp hd with hd | hd
          · subst hd; exact le_refl _
          · have := ih _ hs d hd hdn; omega
    · rw [if_neg h1] at h
      rcases List.mem_cons.mp hd with hd | hd
      · subst hd; exact absurd hdn h1
      · exact ih _ h d hd hdn

theorem bestFitSpec_earliest (n : Nat) (l : List FreeBlock) (c : FreeBlock)
    (h : bestFitSpec n l = some c) :
    ∃ pre suf, l = pre ++ c :: suf ∧
      ∀ d ∈ pre, n ≤ d.num_pages → c.num_pages < d.num_pages := by
  induction l with
  | nil => simp [bestFitSpec] at h
  | cons b rest ih =>
    simp only [bestFitSpec] at h
    by_cases h1 : n ≤ b.num_pages
    · rw [if_pos h1] at h
      cases hs : bestFitSpec n rest with
      | none =>
        rw [hs, pickBetter_none] at h
        have hbc : b = c := Option.some.inj h
        subst hbc
        exact ⟨[], rest, rfl, by simp⟩
      | some e =>
        rw [hs, pickBetter_some] at h
        by_cases h4 : e.num_pages < b.num_pages
        · rw [if_pos h4] at h
          have hec : e = c := Option.some.inj h
          subst hec
          rcases ih hs with ⟨pre, suf, heq, hpre⟩
          refine ⟨b :: pre, suf, by simp [heq], ?_⟩
          intro d hd hdn
          rcases List.mem_cons.mp hd with hd | hd
          · subst hd; exact h4
          · exact hpre d hd hdn
        · rw [if_neg h4] at h
          have hbc : b = c := Option.some.inj h
          subst hbc
          exact ⟨[], rest, rfl, by simp⟩
    · rw [if_neg h1] at h
      rcases ih h with ⟨pre, suf, heq, hpre⟩
      refine ⟨b :: pre, suf, by simp [heq], ?_⟩
      intro d hd hdn
      rcases List.mem_cons.mp hd with hd | hd
      · subst hd; exact absurd hdn h1
      · exact hpre d hd hdn

/-- The scan of `findBestFitBlock` with an accumulated candidate computes
the reference best-fit of the rest, combined with the candidate. -/
theorem findBestFitFrom_eq (n : Nat) (l : List FreeBlock) :
    ∀ (i : Nat) (best : Option (Nat × FreeBlock)),
      (∀ p, best = some p → n < p.2.num_pages) →
      Option.map Prod.snd (findBestFitFrom n l i best)
        = combineBest (Option.map Prod.snd best) (bestFitSpec n l) := by
  induction l with
  | nil =>
    intro i best hinv
    cases best with
    | none => rfl
    | some p => rfl
  | cons b rest ih =>
    intro i best hinv
    simp only [findBestFitFrom, bestFitSpec]
    by_cases h1 : n ≤ b.num_pages
    · rw [if_pos h1]
      cases best with
      | none =>
        rw [if_pos ⟨h1, rfl⟩]
        simp only [Option.map_none', combineBest_none]
        by_cases h2 : b.num_pages = n
        · rw [if_pos h2]
          cases hs : bestFitSpec n rest with
          | none => rw [pickBetter_none]; rfl
          | some c =>
            have hc := bestFitSpec_some_le n rest c hs
            rw [pickBetter_some, if_neg (by omega)]
            rfl
        · rw [if_neg h2]
          rw [ih (i + 1) (some (i, b))
            (by intro p hp; cases hp; exact lt_of_le_of_ne h1 (fun hx => h2 hx.symm))]
          cases hs : bestFitSpec n rest with
          | none => rw [pickBetter_none, Option.map_some', combineBest_some_none]
          | some c => rw [pickBetter_some, Option.map_some', combineBest_some_some]
      | some p =>
        have hp : n < p.2.num_pages := hinv p rfl
        by_cases h2 : b.num_pages < p.2.num_pages
        · rw [if_pos ⟨h1, by simp [betterThan]; omega⟩]
          by_cases h3 : b.num_pages = n
          · rw [if_pos h3]
            cases hs : bestFitSpec n rest with
            | none =>
              show some b = if b.num_pages < p.2.num_pages then some b else some p.2
              rw [if_pos h2]
            | some c =>
              have hc := bestFitSpec_some_le n rest c hs
              show some b
                = combineBest (some p.2) (if c.num_pages < b.num_pages then some c else some b)
              rw [if_neg (by omega)]
              show some b = if b.num_pages < p.2.num_pages then some b else some p.2
              rw [if_pos h2]
          · rw [if_neg h3]
            rw [ih (i + 1) (some (i, b))
              (by intro q hq; cases hq; exact lt_of_le_of_ne h1 (fun hx => h3 hx.symm))]
            cases hs : bestFitSpec n rest with
            | none =>
              show some b = if b.num_pages < p.2.num_pages then some b else some p.2
              rw [if_pos h2]
            | some c =>
              show (if c.num_pages < b.num_pages then some c else some b)
                = combineBest (some p.2) (if c.num_pages < b.num_pages then some c else some b)
              by_cases h4 : c.num_pages < b.num_pages
              · simp only [if_pos h4]
                show some c = if c.num_pages < p.2.num_pages then some c else some p.2
                rw [if_pos (by omega)]
              · simp only [if_neg h4]
                show some b = if b.num_pages < p.2.num_pages then some b else some p.2
                rw [if_pos h2]
        · rw [if_neg (by
            intro hcond
            have := of_decide_eq_true hcond.2
            omega)]
          rw [ih (i + 1) (some p) hinv]
          cases hs : bestFitSpec n rest with
          | none =>
            show some p.2 = if b.num_pages < p.2.num_pages then some b else some p.2
            rw [if_neg h2]
          | some c =>
            show (if c.num_pages < p.2.num_pages then some c else some p.2)
              = combineBest (some p.2) (if c.num_pages < b.num_pages then some c else some b)
            by_cases h4 : c.num_pages < b.num_pages
            · rw [if_pos h4]
              rfl
            · rw [if_neg h4]
              have hcp : ¬ c.num_pages < p.2.num_pages := by omega
              rw [if_neg hcp]
              show some p.2 = if b.num_pages < p.2.num_pages then some b else some p.2
              rw [if_neg h2]
    · rw [if_neg (fun hc => h1 hc.1), if_neg h1]
      exact ih (i + 1) best hinv

theorem findBestFitBlock_spec (l : List FreeBlock) (n : Nat) :
    Option.map Prod.snd (findBestFitBlock l n) = bestFitSpec n l := by
  have h := findBestFitFrom_eq n l 0 none (by intro p hp; exact Option.noConfusion hp)
  simpa [combineBest, findBestFitBlock] using h

/-- Shared consequence: the scan fails exactly when no extent is large
enough. -/
theorem findBestFitBlock_none_iff (l : List FreeBlock) (n : Nat) :
    findBestFitBlock l n = none ↔ ∀ b ∈ l, b.num_pages < n := by
  rw [← bestFitSpec_none_iff n l, ← findBestFitBlock_spec]
  cases h : findBestFitBlock l n <;> simp

/-- Early termination of the scan on an exact fit: every node after the
first block of length exactly `n` is irrelevant. -/
theorem findBestFitFrom_exact (n : Nat) (b : FreeBlock) (suf : List FreeBlock)
    (hb : b.num_pages = n) :
    ∀ (pre : List FreeBlock) (i : Nat) (best : Option (Nat × FreeBlock)),
      (∀ p, best = some p → n < p.2.num_pages) →
      findBestFitFrom n (pre ++ b :: suf) i best = findBestFitFrom n (pre ++ [b]) i best := by
  intro pre
  induction pre with
  | nil =>
    intro i best hinv
    have hbt : betterThan best b.num_pages = true := by
      cases best with
      | none => rfl
      | some p =>
        have := hinv p rfl
        simp [betterThan]
        omega
    have hcond : n ≤ b.num_pages ∧ betterThan best b.num_pages = true :=
      ⟨le_of_eq hb.symm, hbt⟩
    simp only [List.nil_append, findBestFitFrom]
    rw [if_pos hcond, if_pos hb, if_pos hcond, if_pos hb]
  | cons x pre ih =>
    intro i best hinv
    simp only [List.cons_append, findBestFitFrom]
    by_cases hcond : n ≤ x.num_pages ∧ betterThan best x.num_pages = true
    · rw [if_pos hcond, if_pos hcond]
      by_cases hx : x.num_pages = n
      · rw [if_pos hx, if_pos hx]
      · rw [if_neg hx, if_neg hx]
        exact ih (i + 1) (some (i, x))
          (by intro p hp; cases hp; exact lt_of_le_of_ne hcond.1 (fun h => hx h.symm))
    · rw [if_neg hcond, if_neg hcond]
      exact ih (i + 1) best hinv

/-- C3.  `findBestFitBlock` fails exactly when no extent has length `≥ n`;
a returned extent has length `≥ n`, minimal among all eligible extents,
and strictly smaller than every eligible extent before it in the list;
and the scan stops at the first exact fit (nodes after it do not affect
the result). -/
theorem find_best_fit_correct (l : List FreeBlock) (n : Nat) :
    (findBestFitBlock l n = none ↔ ∀ b ∈ l, b.num_pages < n) ∧
    (∀ i b, findBestFitBlock l n = some (i, b) →
      n ≤ b.num_pages ∧
      (∀ c ∈ l, n ≤ c.num_pages → b.num_pages ≤ c.num_pages) ∧
      ∃ pre suf, l = pre ++ b :: suf ∧
        ∀ c ∈ pre, n ≤ c.num_pages → b.num_pages < c.num_pages) ∧
    (∀ pre b suf, b.num_pages = n →
      findBestFitBlock (pre ++ b :: suf) n = findBestFitBlock (pre ++ [b]) n) := by
  refine ⟨findBestFitBlock_none_iff l n, ?_, ?_⟩
  · intro i b hib
    have hmap := findBestFitBlock_spec l n
    rw [hib] at hmap
    simp only [Option.map_some'] at hmap
    exact ⟨bestFitSpec_some_le n l b hmap.symm,
      bestFitSpec_min n l b hmap.symm,
      bestFitSpec_earliest n l b hmap.symm⟩
  · intro pre b suf hb
    exact findBestFitFrom_exact n b suf hb pre 0 none
      (by intro p hp; exact Option.noConfusion hp)

/-- The free list of the spec scenario 1: `[(0,2),(3,5),(9,1)]`. -/
def sampleFreeListB : List FreeBlock :=
  [{ start_page := 0, num_pages := 2 }, { start_page := 3, num_pages := 5 },
   { start_page := 9, num_pages := 1 }]

/-- Witness for C3 at the spec scenario: free list `[(0,2),(3,5),(9,1)]`
and a request for 2 pages picks the exact fit at the head. -/
theorem find_best_fit_correct_witness :
    findBestFitBlock sampleFreeListB 2
      = some (0, { start_page := 0, num_pages := 2 }) ∧
    (findBestFitBlock sampleFreeListB 2 = none ↔
      ∀ b ∈ sampleFreeListB, b.num_pages < 2) ∧
    (2 ≤ (2:Nat) ∧
      (∀ c ∈ sampleFreeListB, 2 ≤ c.num_pages →
        (2:Nat) ≤ c.num_pages) ∧
      ∃ pre suf, sampleFreeListB = pre ++ { start_page := 0, num_pages := 2 } :: suf ∧
        ∀ c ∈ pre, 2 ≤ c.num_pages → (2:Nat) < c.num_pages) :=
  ⟨by decide, (find_best_fit_correct sampleFreeListB 2).1,
   (find_best_fit_correct sampleFreeListB 2).2.1 0
     { start_page := 0, num_pages := 2 } (by decide)⟩

theorem fragScan_snd_ge (l : List FreeBlock) :
    ∀ cnt lg, lg ≤ (fragScan l cnt lg).2 := by
  induction l with
  | nil => intro cnt lg; exact le_refl _
  | cons b rest ih =>
    intro cnt lg
    simp only [fragScan]
    by_cases h : lg < b.num_pages
    · rw [if_pos h]
      exact le_trans (le_of_lt h) (ih (cnt + 1) b.num_pages)
    · rw [if_neg h]
      exact ih (cnt + 1) lg

theorem fragScan_snd_mem_le (l : List FreeBlock) :
    ∀ cnt lg, ∀ b ∈ l, b.num_pages ≤ (fragScan l cnt lg).2 := by
  induction l with
  | nil => intro cnt lg b hb; simp at hb
  | cons c rest ih =>
    intro cnt lg b hb
    simp only [fragScan]
    rcases List.mem_cons.mp hb with hb | hb
    · subst hb
      by_cases h : lg < b.num_pages
      · rw [if_pos h]; exact fragScan_snd_ge rest (cnt + 1) b.num_pages
      · rw [if_neg h]; exact le_trans (le_of_not_lt h) (fragScan_snd_ge rest (cnt + 1) lg)
    · by_cases h : lg < c.num_pages
      · rw [if_pos h]; exact ih (cnt + 1) c.num_pages b hb
      · rw [if_neg h]; exact ih (cnt + 1) lg b hb

theorem fragScan_snd_cases (l : List FreeBlock) :
    ∀ cnt lg, (fragScan l cnt lg).2 = lg ∨ ∃ b ∈ l, (fragScan l cnt lg).2 = b.num_pages := by
  induction l with
  | nil => intro cnt lg; exact Or.inl rfl
  | cons c rest ih =>
    intro cnt lg
    simp only [fragScan]
    by_cases h : lg < c.num_pages
    · rw [if_pos h]
      rcases ih (cnt + 1) c.num_pages with h2 | ⟨b, hb, h2⟩
      · exact Or.inr ⟨c, List.mem_cons_self c rest, h2⟩
      · exact Or.inr ⟨b, List.mem_cons_of_mem _ hb, h2⟩
    · rw [if_neg h]
      rcases ih (cnt + 1) lg with h2 | ⟨b, hb, h2⟩
      · exact Or.inl h2
      · exact Or.inr ⟨b, List.mem_cons_of_mem _ hb, h2⟩

/-- C6.  `defragment` first compacts and then returns true exactly when
the largest free block of the compacted state (as computed by
`getFragmentationStats`, proved here to be an upper bound attained by
some extent unless the free list is empty) is at least the request. -/
theorem defragment_success_criterion (s : ServerState) (n : Nat) :
    (defragment s n).1 = compactMemory s ∧
    ((defragment s n).2 = true ↔
      n ≤ (getFragmentationStats (compactMemory s)).largest_free_block) ∧
    (∀ b ∈ (compactMemory s).freeList,
      b.num_pages ≤ (getFragmentationStats (compactMemory s)).largest_free_block) ∧
    ((getFragmentationStats (compactMemory s)).largest_free_block = 0 ∨
      ∃ b ∈ (compactMemory s).freeList,
        b.num_pages = (getFragmentationStats (compactMemory s)).largest_free_block) := by
  refine ⟨rfl, decide_eq_true_iff, ?_, ?_⟩
  · intro b hb
    exact fragScan_snd_mem_le (compactMemory s).freeList 0 0 b hb
  · rcases fragScan_snd_cases (compactMemory s).freeList 0 0 with h | ⟨b, hb, h⟩
    · exact Or.inl h
    · exact Or.inr ⟨b, hb, h.symm⟩

/-- Witness for C6: the success criterion instantiated at a concrete
state and request. -/
theorem defragment_success_criterion_witness :
    (defragment sampleState 3).1 = compactMemory sampleState ∧
    ((defragment sampleState 3).2 = true ↔
      3 ≤ (getFragmentationStats (compactMemory sampleState)).largest_free_block) ∧
    (∀ b ∈ (compactMemory sampleState).freeList,
      b.num_pages ≤ (getFragmentationStats (compactMemory sampleState)).largest_free_block) ∧
    ((getFragmentationStats (compactMemory sampleState)).largest_free_block = 0 ∨
      ∃ b ∈ (compactMemory sampleState).freeList,
        b.num_pages = (getFragmentationStats (compactMemory sampleState)).largest_free_block) :=
  defragment_success_criterion sampleState 3

theorem calculateRequiredPages_pos (d : Nat) (hd : 1 ≤ d) :
    1 ≤ calculateRequiredPages d := by
  unfold calculateRequiredPages PAGE_SIZE
  rw [Nat.one_le_div_iff (by norm_num)]
  omega

theorem defragment_fst (s : ServerState) (n : Nat) :
    (defragment s n).1 = compactMemory s := rfl

/-- For a positive request, `defragment` reports success exactly when the
best-fit search on the compacted free list succeeds. -/
theorem defragment_ok_iff (s : ServerState) (n : Nat) (hn : 1 ≤ n) :
    (defragment s n).2 = true ↔
      findBestFitBlock (compactMemory s).freeList n ≠ none := by
  rw [(defragment_success_criterion s n).2.1, Ne, findBestFitBlock_none_iff]
  constructor
  · intro h hall
    rcases fragScan_snd_cases (compactMemory s).freeList 0 0 with h2 | ⟨b, hb, h2⟩
    · have : (getFragmentationStats (compactMemory s)).largest_free_block = 0 := h2
      omega
    · have hlt := hall b hb
      have : (getFragmentationStats (compactMemory s)).largest_free_block = b.num_pages := h2
      omega
  · intro h
    by_contra hno
    push_neg at hno
    apply h
    intro b hb
    have := fragScan_snd_mem_le (compactMemory s).freeList 0 0 b hb
    have hlg : b.num_pages ≤ (getFragmentationStats (compactMemory s)).largest_free_block :=
      this
    omega

/-- Modelled from the spec (§4.F step 4, claim C4): the eviction tail of
the admission controller — call `evict(n)`, return out-of-capacity when
eviction fails, and otherwise retry best fit and commit, failing only if
the final retry still finds no extent. -/
def allocateSpecEvict (evictFn : Nat → ServerState → ServerState × Bool)
    (s : ServerState) (n : Nat) (key client_id : String) (data_size : Nat) :
    ServerState × Bool :=
  let ev := evictFn n s
  if ev.2 then
    match findBestFitBlock ev.1.freeList n with
    | some ib => (commitAlloc ev.1 ib.1 ib.2 n key client_id data_size, true)
    | none => (ev.1, false)
  else (ev.1, false)

/-- Modelled from the spec (§4.F, claim C4): the admission sequencing as
the spec words it — try best fit and commit on success; otherwise, if
`total_free_pages ≥ n`, run the defragmenter with target `n` and retry
best fit, falling through to eviction if the retry still returns none;
otherwise (or on fall-through) run the eviction tail. -/
def allocateSpec (evictFn : Nat → ServerState → ServerState × Bool)
    (s : ServerState) (key : String) (data_size : Nat) (client_id : String) :
    ServerState × Bool :=
  let n := calculateRequiredPages data_size
  match findBestFitBlock s.freeList n with
  | some ib => (commitAlloc s ib.1 ib.2 n key client_id data_size, true)
  | none =>
    if n ≤ s.total_free_pages then
      let sd := (defragment s n).1
      match findBestFitBlock sd.freeList n with
      | some ib => (commitAlloc sd ib.1 ib.2 n key client_id data_size, true)
      | none => allocateSpecEvict evictFn sd n key client_id data_size
    else allocateSpecEvict evictFn s n key client_id data_size

/-- C4.  For any eviction procedure and any request of at least one byte,
`allocatePages` follows exactly the claimed admission sequencing
(`allocateSpec`): best fit, then defragment-and-retry when the counter
shows enough free pages (falling through to eviction when the retry
fails), then eviction with a final retry, out-of-capacity otherwise. -/
theorem admission_controller_sequencing (evictFn : Nat → ServerState → ServerState × Bool)
    (s : ServerState) (key client_id : String) (data_size : Nat) (hds : 1 ≤ data_size) :
    allocatePages evictFn s key data_size client_id
      = allocateSpec evictFn s key data_size client_id := by
  have hn : 1 ≤ calculateRequiredPages data_size := calculateRequiredPages_pos data_size hds
  cases hfb : findBestFitBlock s.freeList (calculateRequiredPages data_size) with
  | some ib =>
    simp only [allocatePages, allocateSpec, hfb]
  | none =>
    simp only [allocatePages, allocateSpec, hfb]
    by_cases htf : calculateRequiredPages data_size ≤ s.total_free_pages
    · rw [if_pos htf, if_pos htf]
      by_cases hok : (defragment s (calculateRequiredPages data_size)).2 = true
      · rw [if_pos hok]
        have hne := (defragment_ok_iff s (calculateRequiredPages data_size) hn).mp hok
        rw [defragment_fst] at *
        cases hfb2 : findBestFitBlock (compactMemory s).freeList
            (calculateRequiredPages data_size) with
        | none => exact absurd hfb2 hne
        | some ib2 => simp only [hfb2]
      · rw [if_neg hok]
        have hno : findBestFitBlock (compactMemory s).freeList
            (calculateRequiredPages data_size) = none := by
          by_contra hcon
          exact hok ((defragment_ok_iff s (calculateRequiredPages data_size) hn).mpr hcon)
        rw [defragment_fst] at *
        rw [hno]
        simp only [allocateSpecEvict]
        by_cases hev : (evictFn (calculateRequiredPages data_size) (compactMemory s)).2 = true
        · rw [if_pos hev, if_pos hev]
          cases hfb3 : findBestFitBlock
              (evictFn (calculateRequiredPages data_size) (compactMemory s)).1.freeList
              (calculateRequiredPages data_size) with
          | none => simp only [hfb3]
          | some ib3 => simp only [hfb3]
        · rw [if_neg hev, if_neg hev]
    · rw [if_neg htf, if_neg htf]
      simp only [allocateSpecEvict]
      by_cases hev : (evictFn (calculateRequiredPages data_size) s).2 = true
      · rw [if_pos hev, if_pos hev]
        cases hfb3 : findBestFitBlock
            (evictFn (calculateRequiredPages data_size) s).1.freeList
            (calculateRequiredPages data_size) with
        | none => simp only [hfb3]
        | some ib3 => simp only [hfb3]
      · rw [if_neg hev, if_neg hev]

/-- Witness for C4 at the fresh state with a one-byte request. -/
theorem admission_controller_sequencing_witness :
    1 ≤ 1 ∧
    allocatePages noEvict initState "k" 1 "c" = allocateSpec noEvict initState "k" 1 "c" :=
  ⟨by decide, admission_controller_sequencing noEvict initState "k" "c" 1 (by decide)⟩

theorem readMem_length (m : Nat → Nat) (s ds : Nat) : (readMem m s ds).length = ds := by
  simp [readMem]

theorem readMem_congr (m1 m2 : Nat → Nat) (s ds : Nat)
    (h : ∀ j, j < ds → m1 (s * PAGE_SIZE + j) = m2 (s * PAGE_SIZE + j)) :
    readMem m1 s ds = readMem m2 s ds := by
  unfold readMem
  apply List.map_congr_left
  intro j hj
  exact h j (List.mem_range.mp hj)

theorem writeMem_out (m : Nat → Nat) (c : Nat) (d : List Nat) (a : Nat)
    (h : a < c * PAGE_SIZE ∨ c * PAGE_SIZE + d.length ≤ a) :
    writeMem m c d a = m a := by
  unfold writeMem
  rw [if_neg (by omega)]

theorem readMem_writeMem_self (m : Nat → Nat) (c : Nat) (d : List Nat) :
    readMem (writeMem m c d) c d.length = d := by
  apply List.ext_getElem
  · simp [readMem]
  · intro i h1 h2
    simp only [readMem, List.getElem_map, List.getElem_range]
    unfold writeMem
    rw [if_pos ⟨Nat.le_add_right _ _, by omega⟩, Nat.add_sub_cancel_left]
    exact List.getD_eq_getElem d 0 h2

theorem readMem_writeMem_disjoint (m : Nat → Nat) (c : Nat) (d : List Nat) (s ds : Nat)
    (h : c * PAGE_SIZE + d.length ≤ s * PAGE_SIZE ∨ s * PAGE_SIZE + ds ≤ c * PAGE_SIZE) :
    readMem (writeMem m c d) s ds = readMem m s ds := by
  apply readMem_congr
  intro j hj
  apply writeMem_out
  omega

theorem lookupEntry_insertEntry_self (l : List (String × CacheEntry)) (k : String)
    (e : CacheEntry) : lookupEntry (insertEntry l k e) k = some e := by
  induction l with
  | nil => simp [insertEntry, lookupEntry]
  | cons p rest ih =>
    simp only [insertEntry]
    by_cases h : p.1 = k
    · rw [if_pos h]
      simp [lookupEntry]
    · rw [if_neg h]
      simp only [lookupEntry, if_neg h]
      exact ih

theorem lookupEntry_insertEntry_ne (l : List (String × CacheEntry)) (k k2 : String)
    (e : CacheEntry) (h : k2 ≠ k) :
    lookupEntry (insertEntry l k e) k2 = lookupEntry l k2 := by
  have hkk : ¬ (k = k2) := fun hx => h hx.symm
  induction l with
  | nil =>
    show (if k = k2 then some e else none) = none
    rw [if_neg hkk]
  | cons p rest ih =>
    simp only [insertEntry]
    by_cases hp : p.1 = k
    · rw [if_pos hp]
      show (if k = k2 then some e else lookupEntry rest k2)
        = (if p.1 = k2 then some p.2 else lookupEntry rest k2)
      rw [if_neg hkk, if_neg (fun hx => hkk (hp.symm.trans hx))]
    · rw [if_neg hp]
      show (if p.1 = k2 then some p.2 else lookupEntry (insertEntry rest k e) k2)
        = (if p.1 = k2 then some p.2 else lookupEntry rest k2)
      by_cases hq : p.1 = k2
      · rw [if_pos hq, if_pos hq]
      · rw [if_neg hq, if_neg hq]
        exact ih

theorem lookupEntry_eq_some_of_mem (l : List (String × CacheEntry))
    (hnd : (l.map Prod.fst).Nodup) (p : String × CacheEntry) (hp : p ∈ l) :
    lookupEntry l p.1 = some p.2 := by
  induction l with
  | nil => simp at hp
  | cons q rest ih =>
    simp only [List.map_cons, List.nodup_cons] at hnd
    rcases List.mem_cons.mp hp with hp | hp
    · subst hp
      simp [lookupEntry]
    · simp only [lookupEntry]
      rw [if_neg (by
        intro hq
        exact hnd.1 (hq ▸ List.mem_map_of_mem Prod.fst hp))]
      exact ih hnd.2 hp

theorem mem_of_lookupEntry_eq_some (l : List (String × CacheEntry)) (k : String)
    (e : CacheEntry) (h : lookupEntry l k = some e) : (k, e) ∈ l := by
  induction l with
  | nil => simp [lookupEntry] at h
  | cons p rest ih =>
    simp only [lookupEntry] at h
    by_cases hp : p.1 = k
    · rw [if_pos hp] at h
      have he : p.2 = e := Option.some.inj h
      have : (k, e) = p := by
        cases p
        simp at hp he
        simp [hp, he]
      rw [this]
      exact List.mem_cons_self p rest
    · rw [if_neg hp] at h
      exact List.mem_cons_of_mem _ (ih h)

theorem key_mem_of_lookupEntry_eq_some (l : List (String × CacheEntry)) (k : String)
    (e : CacheEntry) (h : lookupEntry l k = some e) : k ∈ l.map Prod.fst :=
  List.mem_map_of_mem Prod.fst (mem_of_lookupEntry_eq_some l k e h)

theorem lookupEntry_eq_none_of_not_mem (l : List (String × CacheEntry)) (k : String)
    (h : k ∉ l.map Prod.fst) : lookupEntry l k = none := by
  cases hl : lookupEntry l k with
  | none => rfl
  | some e => exact absurd (key_mem_of_lookupEntry_eq_some l k e hl) h

/-- Comparator of the `std::sort` call: ascending `start_page`. -/
def startLE (p q : String × CacheEntry) : Prop := p.2.start_page ≤ q.2.start_page

/-- Separation of two entries: the first one's run ends before the second
one's begins. -/
def EntrySep (p q : String × CacheEntry) : Prop :=
  p.2.start_page + p.2.num_pages ≤ q.2.start_page

instance : DecidableRel EntrySep :=
  fun p q => inferInstanceAs (Decidable (p.2.start_page + p.2.num_pages ≤ q.2.start_page))

theorem sortedInsert_perm (p : String × CacheEntry) (l : List (String × CacheEntry)) :
    (sortedInsert p l).Perm (p :: l) := by
  induction l with
  | nil => exact List.Perm.refl _
  | cons q rest ih =>
    simp only [sortedInsert]
    by_cases h : p.2.start_page < q.2.start_page
    · rw [if_pos h]
    · rw [if_neg h]
      exact (ih.cons q).trans (List.Perm.swap p q rest)

theorem sortByStart_perm (l : List (String × CacheEntry)) : (sortByStart l).Perm l := by
  induction l with
  | nil => exact List.Perm.refl _
  | cons p rest ih =>
    have : sortByStart (p :: rest) = sortedInsert p (sortByStart rest) := rfl
    rw [this]
    exact (sortedInsert_perm p (sortByStart rest)).trans (ih.cons p)

theorem sortedInsert_sorted (p : String × CacheEntry) (l : List (String × CacheEntry))
    (h : List.Pairwise startLE l) : List.Pairwise startLE (sortedInsert p l) := by
  induction l with
  | nil => exact List.pairwise_singleton startLE p
  | cons q rest ih =>
    have hq := List.pairwise_cons.mp h
    simp only [sortedInsert]
    by_cases hlt : p.2.start_page < q.2.start_page
    · rw [if_pos hlt]
      refine List.pairwise_cons.mpr ⟨?_, h⟩
      intro x hx
      rcases List.mem_cons.mp hx with hx | hx
      · subst hx; exact le_of_lt hlt
      · exact le_trans (le_of_lt hlt) (hq.1 x hx)
    · rw [if_neg hlt]
      refine List.pairwise_cons.mpr ⟨?_, ih hq.2⟩
      intro x hx
      rcases List.mem_cons.mp ((sortedInsert_perm p rest).mem_iff.mp hx) with hx2 | hx2
      · subst hx2; exact le_of_not_lt hlt
      · exact hq.1 x hx2

theorem sortByStart_sorted (l : List (String × CacheEntry)) :
    List.Pairwise startLE (sortByStart l) := by
  induction l with
  | nil => exact List.Pairwise.nil
  | cons p rest ih => exact sortedInsert_sorted p (sortByStart rest) ih

theorem sorted_entrySep (l : List (String × CacheEntry))
    (hle : List.Pairwise startLE l)
    (hdisj : List.Pairwise (fun p q => EntrySep p q ∨ EntrySep q p) l)
    (hpos : ∀ p ∈ l, 1 ≤ p.2.num_pages) :
    List.Pairwise EntrySep l := by
  induction l with
  | nil => exact List.Pairwise.nil
  | cons p rest ih =>
    have h1 := List.pairwise_cons.mp hle
    have h2 := List.pairwise_cons.mp hdisj
    refine List.pairwise_cons.mpr
      ⟨?_, ih h1.2 h2.2 (fun q hq => hpos q (List.mem_cons_of_mem _ hq))⟩
    intro q hq
    rcases h2.1 q hq with h | h
    · exact h
    · have hle1 := h1.1 q hq
      have hp1 := hpos q (List.mem_cons_of_mem _ hq)
      unfold EntrySep startLE at *
      omega

theorem sumNp_nil : sumNp [] = 0 := rfl

theorem sumNp_cons (p : String × CacheEntry) (l : List (String × CacheEntry)) :
    sumNp (p :: l) = p.2.num_pages + sumNp l := by
  simp [sumNp]

theorem sumNp_append (l1 l2 : List (String × CacheEntry)) :
    sumNp (l1 ++ l2) = sumNp l1 + sumNp l2 := by
  simp [sumNp]

theorem sumNp_take_le (l : List (String × CacheEntry)) :
    ∀ i, sumNp (l.take i) ≤ sumNp l := by
  induction l with
  | nil => intro i; simp [sumNp]
  | cons p rest ih =>
    intro i
    cases i with
    | zero => simp [sumNp]
    | succ i =>
      rw [List.take_succ_cons, sumNp_cons, sumNp_cons]
      exact Nat.add_le_add_left (ih i) _

theorem sumNp_take_mono (l : List (String × CacheEntry)) (i j : Nat) (h : i ≤ j) :
    sumNp (l.take i) ≤ sumNp (l.take j) := by
  have : l.take i = (l.take j).take i := by
    rw [List.take_take, Nat.min_eq_left h]
  rw [this]
  exact sumNp_take_le (l.take j) i

theorem sumNp_take_succ (l : List (String × CacheEntry)) (i : Nat) (h : i < l.length) :
    sumNp (l.take (i + 1)) = sumNp (l.take i) + (l.get ⟨i, h⟩).2.num_pages := by
  rw [List.take_succ, sumNp_append]
  have : l[i]? = some (l.get ⟨i, h⟩) := by
    rw [List.getElem?_eq_getElem h]
    rfl
  rw [this]
  simp [sumNp]

theorem compactStep_cursor (acc : CompactAcc) (p : String × CacheEntry) :
    (compactStep acc p).cursor = acc.cursor + p.2.num_pages := rfl

theorem compactStep_mem (acc : CompactAcc) (p : String × CacheEntry) :
    (compactStep acc p).mem
      = if p.2.start_page ≠ acc.cursor then
          writeMem acc.mem acc.cursor (readMem acc.mem p.2.start_page p.2.data_size)
        else acc.mem := by
  by_cases h : p.2.start_page ≠ acc.cursor <;> simp [compactStep, h]

theorem compactStep_entries (acc : CompactAcc) (p : String × CacheEntry) :
    (compactStep acc p).entries
      = if p.2.start_page ≠ acc.cursor then
          insertEntry acc.entries p.1 { p.2 with start_page := acc.cursor }
        else acc.entries := by
  by_cases h : p.2.start_page ≠ acc.cursor <;> simp [compactStep, h]

/-- Main invariant of the relocation loop of `compactMemory`: processing a
separated, ascending suffix `rem` whose sources are intact (relative to
the original memory `m0`) packs its entries contiguously from the cursor
onwards, preserves their bytes and all other keys, and leaves the memory
below the starting cursor untouched. -/
theorem compactFold_spec (m0 : Nat → Nat) (rem : List (String × CacheEntry)) :
    ∀ (acc : CompactAcc),
      List.Pairwise EntrySep rem →
      (∀ p ∈ rem, acc.cursor ≤ p.2.start_page) →
      (∀ p ∈ rem, readMem acc.mem p.2.start_page p.2.data_size
          = readMem m0 p.2.start_page p.2.data_size) →
      (∀ p ∈ rem, p.2.data_size ≤ p.2.num_pages * PAGE_SIZE) →
      (∀ p ∈ rem, lookupEntry acc.entries p.1 = some p.2) →
      (rem.map Prod.fst).Nodup →
      (rem.foldl compactStep acc).cursor = acc.cursor + sumNp rem ∧
      (∀ a, a < acc.cursor * PAGE_SIZE → (rem.foldl compactStep acc).mem a = acc.mem a) ∧
      (∀ k, (∀ p ∈ rem, p.1 ≠ k) →
        lookupEntry (rem.foldl compactStep acc).entries k = lookupEntry acc.entries k) ∧
      (∀ i, (hi : i < rem.length) →
        lookupEntry (rem.foldl compactStep acc).entries (rem.get ⟨i, hi⟩).1
            = some { (rem.get ⟨i, hi⟩).2 with
                start_page := acc.cursor + sumNp (rem.take i) } ∧
        readMem (rem.foldl compactStep acc).mem (acc.cursor + sumNp (rem.take i))
            (rem.get ⟨i, hi⟩).2.data_size
          = readMem m0 (rem.get ⟨i, hi⟩).2.start_page (rem.get ⟨i, hi⟩).2.data_size) := by
  induction rem with
  | nil =>
    intro acc _ _ _ _ _ _
    refine ⟨by simp [sumNp], fun a _ => rfl, fun k _ => rfl, ?_⟩
    intro i hi
    simp at hi
  | cons p rest ih =>
    intro acc hsep hcur hmem hsz hlook hnd
    have hcurp : acc.cursor ≤ p.2.start_page := hcur p (List.mem_cons_self p rest)
    have hszp : p.2.data_size ≤ p.2.num_pages * PAGE_SIZE := hsz p (List.mem_cons_self p rest)
    have hsepc := List.pairwise_cons.mp hsep
    have hndc : p.1 ∉ rest.map Prod.fst ∧ (rest.map Prod.fst).Nodup := by
      simpa using hnd
    have hne : ∀ q ∈ rest, q.1 ≠ p.1 := by
      intro q hq hx
      exact hndc.1 (hx ▸ List.mem_map_of_mem Prod.fst hq)
    have hB : ∀ q ∈ rest, (compactStep acc p).cursor ≤ q.2.start_page := by
      intro q hq
      rw [compactStep_cursor]
      have := hsepc.1 q hq
      unfold EntrySep at this
      omega
    have hC : ∀ q ∈ rest, readMem (compactStep acc p).mem q.2.start_page q.2.data_size
        = readMem m0 q.2.start_page q.2.data_size := by
      intro q hq
      rw [compactStep_mem]
      by_cases hmv : p.2.start_page ≠ acc.cursor
      · rw [if_pos hmv]
        rw [readMem_writeMem_disjoint]
        · exact hmem q (List.mem_cons_of_mem _ hq)
        · left
          rw [readMem_length]
          have h1 := hsepc.1 q hq
          unfold EntrySep at h1
          have h2 : acc.cursor + p.2.num_pages ≤ q.2.start_page := by omega
          have h3 : (acc.cursor + p.2.num_pages) * PAGE_SIZE ≤ q.2.start_page * PAGE_SIZE :=
            Nat.mul_le_mul_right _ h2
          rw [Nat.add_mul] at h3
          omega
      · rw [if_neg hmv]
        exact hmem q (List.mem_cons_of_mem _ hq)
    have hE : ∀ q ∈ rest, lookupEntry (compactStep acc p).entries q.1 = some q.2 := by
      intro q hq
      rw [compactStep_entries]
      by_cases hmv : p.2.start_page ≠ acc.cursor
      · rw [if_pos hmv]
        rw [lookupEntry_insertEntry_ne _ _ _ _ (hne q hq)]
        exact hlook q (List.mem_cons_of_mem _ hq)
      · rw [if_neg hmv]
        exact hlook q (List.mem_cons_of_mem _ hq)
    obtain ⟨ihc, ihm, ihf, ihi⟩ :=
      ih (compactStep acc p) hsepc.2 hB hC
        (fun q hq => hsz q (List.mem_cons_of_mem _ hq)) hE hndc.2
    have hfold : (p :: rest).foldl compactStep acc
        = rest.foldl compactStep (compactStep acc p) := rfl
    refine ⟨?_, ?_, ?_, ?_⟩
    · rw [hfold, ihc, compactStep_cursor, sumNp_cons]
      omega
    · intro a ha
      rw [hfold, ihm a (by
        rw [compactStep_cursor, Nat.add_mul]
        omega)]
      rw [compactStep_mem]
      by_cases hmv : p.2.start_page ≠ acc.cursor
      · rw [if_pos hmv]
        exact writeMem_out acc.mem acc.cursor _ a (Or.inl ha)
      · rw [if_neg hmv]
    · intro k hk
      rw [hfold, ihf k (fun q hq => hk q (List.mem_cons_of_mem _ hq))]
      rw [compactStep_entries]
      by_cases hmv : p.2.start_page ≠ acc.cursor
      · rw [if_pos hmv]
        exact lookupEntry_insertEntry_ne _ _ _ _ (hk p (List.mem_cons_self p rest)).symm
      · rw [if_neg hmv]
    · intro i hi
      cases i with
      | zero =>
        have hget : (p :: rest).get ⟨0, hi⟩ = p := rfl
        have htake : sumNp ((p :: rest).take 0) = 0 := rfl
        rw [hget, htake, Nat.add_zero]
        constructor
        · rw [hfold, ihf p.1 hne]
          rw [compactStep_entries]
          by_cases hmv : p.2.start_page ≠ acc.cursor
          · rw [if_pos hmv]
            exact lookupEntry_insertEntry_self _ _ _
          · rw [if_neg hmv]
            push_neg at hmv
            rw [show ({ p.2 with start_page := acc.cursor } : CacheEntry) = p.2 from by
              rw [← hmv]]
            exact hlook p (List.mem_cons_self p rest)
        · rw [hfold]
          have hlow : ∀ j, j < p.2.data_size →
              (rest.foldl compactStep (compactStep acc p)).mem (acc.cursor * PAGE_SIZE + j)
                = (compactStep acc p).mem (acc.cursor * PAGE_SIZE + j) := by
            intro j hj
            apply ihm
            rw [compactStep_cursor, Nat.add_mul]
            omega
          rw [readMem_congr (rest.foldl compactStep (compactStep acc p)).mem
            (compactStep acc p).mem acc.cursor p.2.data_size hlow]
          rw [compactStep_mem]
          by_cases hmv : p.2.start_page ≠ acc.cursor
          · rw [if_pos hmv]
            have hself := readMem_writeMem_self acc.mem acc.cursor
              (readMem acc.mem p.2.start_page p.2.data_size)
            rw [readMem_length] at hself
            rw [hself]
            exact hmem p (List.mem_cons_self p rest)
          · rw [if_neg hmv]
            push_neg at hmv
            rw [← hmv]
            exact hmem p (List.mem_cons_self p rest)
      | succ i =>
        have hi2 : i < rest.length := Nat.lt_of_succ_lt_succ hi
        have hget : (p :: rest).get ⟨i + 1, hi⟩ = rest.get ⟨i, hi2⟩ := rfl
        have htake : sumNp ((p :: rest).take (i + 1))
            = p.2.num_pages + sumNp (rest.take i) := by
          rw [List.take_succ_cons, sumNp_cons]
        rw [hget, htake]
        obtain ⟨h1, h2⟩ := ihi i hi2
        rw [compactStep_cursor] at h1 h2
        have hadd : acc.cursor + (p.2.num_pages + sumNp (rest.take i))
            = acc.cursor + p.2.num_pages + sumNp (rest.take i) := by omega
        rw [hadd, hfold]
        exact ⟨h1, h2⟩

theorem compactMemory_entries (s : ServerState) :
    (compactMemory s).entries = (compactAux s).entries := by
  simp only [compactMemory]
  by_cases h : (compactAux s).cursor < TOTAL_PAGES
  · rw [if_pos h]
  · rw [if_neg h]

theorem compactMemory_mem (s : ServerState) :
    (compactMemory s).mem = (compactAux s).mem := by
  simp only [compactMemory]
  by_cases h : (compactAux s).cursor < TOTAL_PAGES
  · rw [if_pos h]
  · rw [if_neg h]

theorem compactMemory_freeList (s : ServerState) :
    (compactMemory s).freeList
      = if (compactAux s).cursor < TOTAL_PAGES then
          [{ start_page := (compactAux s).cursor,
             num_pages := TOTAL_PAGES - (compactAux s).cursor }]
        else [] := by
  simp only [compactMemory]
  by_cases h : (compactAux s).cursor < TOTAL_PAGES
  · rw [if_pos h, if_pos h]
  · rw [if_neg h, if_neg h]

/-- Well-formedness of the entry table: unique keys, nonempty in-bounds
runs with `data_size` fitting in the run, and pairwise disjoint runs. -/
def CompactWF (s : ServerState) : Prop :=
  (s.entries.map Prod.fst).Nodup ∧
  (∀ p ∈ s.entries, 1 ≤ p.2.num_pages ∧ p.2.data_size ≤ p.2.num_pages * PAGE_SIZE ∧
    p.2.start_page + p.2.num_pages ≤ TOTAL_PAGES) ∧
  List.Pairwise (fun p q => EntrySep p q ∨ EntrySep q p) s.entries

instance (s : ServerState) : Decidable (CompactWF s) := by
  unfold CompactWF
  infer_instance

/-- C2.  Compaction preserves semantics and metadata: on a well-formed
state, every key still maps to an entry with all fields except
`start_page` unchanged and with identical value bytes at its (possibly
new) location; afterwards there is at most one free extent and it ends at
the top of the arena; and all live entries lie packed below the total
live page count, in their original address order. -/
theorem compaction_preserves_semantics (s : ServerState) (hwf : CompactWF s) :
    (∀ k e, lookupEntry s.entries k = some e →
      ∃ e2, lookupEntry (compactMemory s).entries k = some e2 ∧
        e2.key = e.key ∧ e2.client_id = e.client_id ∧
        e2.num_pages = e.num_pages ∧ e2.data_size = e.data_size ∧
        e2.insertion_order = e.insertion_order ∧ e2.visited = e.visited ∧
        e2.reference_bit = e.reference_bit ∧ e2.clock_position = e.clock_position ∧
        readMem (compactMemory s).mem e2.start_page e.data_size
          = readMem s.mem e.start_page e.data_size) ∧
    ((compactMemory s).freeList = [] ∨
      ∃ c, c < TOTAL_PAGES ∧
        (compactMemory s).freeList = [{ start_page := c, num_pages := TOTAL_PAGES - c }]) ∧
    (∀ k e2, lookupEntry (compactMemory s).entries k = some e2 →
      e2.start_page + e2.num_pages ≤ sumNp s.entries) ∧
    (∀ k1 e1 k2 e2 f1 f2, k1 ≠ k2 →
      lookupEntry s.entries k1 = some e1 → lookupEntry s.entries k2 = some e2 →
      lookupEntry (compactMemory s).entries k1 = some f1 →
      lookupEntry (compactMemory s).entries k2 = some f2 →
      e1.start_page < e2.start_page →
      f1.start_page + f1.num_pages ≤ f2.start_page) := by
  obtain ⟨hnd, hbnd, hdisj⟩ := hwf
  have hperm := sortByStart_perm s.entries
  have hndS : ((sortByStart s.entries).map Prod.fst).Nodup :=
    ((hperm.map Prod.fst).nodup_iff).mpr hnd
  have hposS : ∀ p ∈ sortByStart s.entries, 1 ≤ p.2.num_pages :=
    fun p hp => (hbnd p (hperm.mem_iff.mp hp)).1
  have hsepS : List.Pairwise EntrySep (sortByStart s.entries) :=
    sorted_entrySep _ (sortByStart_sorted s.entries)
      ((hperm.pairwise_iff (fun hxy => Or.symm hxy)).mpr hdisj) hposS
  have hszS : ∀ p ∈ sortByStart s.entries, p.2.data_size ≤ p.2.num_pages * PAGE_SIZE :=
    fun p hp => (hbnd p (hperm.mem_iff.mp hp)).2.1
  have hlookS : ∀ p ∈ sortByStart s.entries, lookupEntry s.entries p.1 = some p.2 :=
    fun p hp => lookupEntry_eq_some_of_mem s.entries hnd p (hperm.mem_iff.mp hp)
  obtain ⟨hcK, hmK, hfK, hiK⟩ := compactFold_spec s.mem (sortByStart s.entries)
    { mem := s.mem, pageIsFree := s.pageIsFree, pageBlockStart := s.pageBlockStart,
      entries := s.entries, cursor := 0 }
    hsepS (fun p _ => Nat.zero_le _) (fun p _ => rfl) hszS hlookS hndS
  have hsum : sumNp (sortByStart s.entries) = sumNp s.entries := by
    unfold sumNp
    exact (hperm.map _).sum_eq
  refine ⟨?_, ?_, ?_, ?_⟩
  · intro k e hke
    have hmm : (k, e) ∈ s.entries := mem_of_lookupEntry_eq_some _ _ _ hke
    have hmemS : (k, e) ∈ sortByStart s.entries := hperm.mem_iff.mpr hmm
    obtain ⟨⟨i, hi⟩, hgi⟩ := List.mem_iff_get.mp hmemS
    obtain ⟨hL, hR⟩ := hiK i hi
    rw [hgi] at hL hR
    refine ⟨{ e with start_page := 0 + sumNp ((sortByStart s.entries).take i) },
      ?_, rfl, rfl, rfl, rfl, rfl, rfl, rfl, rfl, ?_⟩
    · rw [compactMemory_entries]
      exact hL
    · rw [compactMemory_mem]
      exact hR
  · rw [compactMemory_freeList]
    by_cases h : (compactAux s).cursor < TOTAL_PAGES
    · right
      exact ⟨(compactAux s).cursor, h, by rw [if_pos h]⟩
    · left
      rw [if_neg h]
  · intro k e2 hke2
    rw [compactMemory_entries] at hke2
    by_cases hkmem : k ∈ (sortByStart s.entries).map Prod.fst
    · obtain ⟨p, hp, hpk⟩ := List.mem_map.mp hkmem
      obtain ⟨⟨i, hi⟩, hgi⟩ := List.mem_iff_get.mp hp
      obtain ⟨hL, _⟩ := hiK i hi
      rw [hgi, hpk] at hL
      have hL2 : lookupEntry (compactAux s).entries k
          = some { p.2 with start_page := 0 + sumNp ((sortByStart s.entries).take i) } := hL
      have he2 : e2 = { p.2 with start_page := 0 + sumNp ((sortByStart s.entries).take i) } :=
        Option.some.inj (hke2.symm.trans hL2)
      subst he2
      show 0 + sumNp ((sortByStart s.entries).take i) + p.2.num_pages ≤ sumNp s.entries
      have hstep := sumNp_take_succ (sortByStart s.entries) i hi
      rw [hgi] at hstep
      rw [← hsum, Nat.zero_add, ← hstep]
      exact sumNp_take_le _ (i + 1)
    · have hframe := hfK k (fun p hp hx => hkmem (hx ▸ List.mem_map_of_mem Prod.fst hp))
      have hframe2 : lookupEntry (compactAux s).entries k = lookupEntry s.entries k := hframe
      rw [hframe2] at hke2
      exact absurd (key_mem_of_lookupEntry_eq_some _ _ _ hke2)
        (fun hm => hkmem (((hperm.map Prod.fst).mem_iff).mpr hm))
  · intro k1 e1 k2 e2 f1 f2 hk12 h1 h2 hf1 hf2 hlt
    rw [compactMemory_entries] at hf1 hf2
    have hm1 : (k1, e1) ∈ sortByStart s.entries :=
      hperm.mem_iff.mpr (mem_of_lookupEntry_eq_some _ _ _ h1)
    have hm2 : (k2, e2) ∈ sortByStart s.entries :=
      hperm.mem_iff.mpr (mem_of_lookupEntry_eq_some _ _ _ h2)
    obtain ⟨⟨i1, hi1⟩, hg1⟩ := List.mem_iff_get.mp hm1
    obtain ⟨⟨i2, hi2⟩, hg2⟩ := List.mem_iff_get.mp hm2
    have hnp2 : 1 ≤ e2.num_pages := (hbnd (k2, e2) (hperm.mem_iff.mp hm2)).1
    have hij : i1 < i2 := by
      rcases Nat.lt_trichotomy i1 i2 with h | h | h
      · exact h
      · exfalso
        have heq : (⟨i1, hi1⟩ : Fin (sortByStart s.entries).length) = ⟨i2, hi2⟩ :=
          Fin.ext h
        have : (k1, e1) = (k2, e2) := by
          rw [← hg1, ← hg2, heq]
        exact hk12 (congrArg Prod.fst this)
      · exfalso
        have hpw := List.pairwise_iff_get.mp hsepS ⟨i2, hi2⟩ ⟨i1, hi1⟩ h
        rw [hg1, hg2] at hpw
        unfold EntrySep at hpw
        simp only at hpw
        omega
    obtain ⟨hL1, _⟩ := hiK i1 hi1
    obtain ⟨hL2, _⟩ := hiK i2 hi2
    rw [hg1] at hL1
    rw [hg2] at hL2
    have hLa : lookupEntry (compactAux s).entries k1
        = some { e1 with start_page := 0 + sumNp ((sortByStart s.entries).take i1) } := hL1
    have hLb : lookupEntry (compactAux s).entries k2
        = some { e2 with start_page := 0 + sumNp ((sortByStart s.entries).take i2) } := hL2
    have hfe1 : f1 = { e1 with start_page := 0 + sumNp ((sortByStart s.entries).take i1) } :=
      Option.some.inj (hf1.symm.trans hLa)
    have hfe2 : f2 = { e2 with start_page := 0 + sumNp ((sortByStart s.entries).take i2) } :=
      Option.some.inj (hf2.symm.trans hLb)
    subst hfe1
    subst hfe2
    show 0 + sumNp ((sortByStart s.entries).take i1) + e1.num_pages
      ≤ 0 + sumNp ((sortByStart s.entries).take i2)
    have hstep := sumNp_take_succ (sortByStart s.entries) i1 hi1
    rw [hg1] at hstep
    have hmono := sumNp_take_mono (sortByStart s.entries) (i1 + 1) i2 (by omega)
    simp only at hstep
    omega

/-- The destination-and-source schedule of the relocation loop of
`compactMemory`: for each live entry in ascending `start_page` order, the
pair (destination cursor, old start page), with the cursor advanced by
`num_pages` after each entry, exactly as the loop computes it. -/
def schedAux : List (String × CacheEntry) → Nat → List (Nat × Nat)
  | [], _ => []
  | p :: rest, cursor => (cursor, p.2.start_page) :: schedAux rest (cursor + p.2.num_pages)

/-- The relocation schedule of `compactMemory` on state `s`. -/
def relocationSchedule (s : ServerState) : List (Nat × Nat) :=
  schedAux (sortByStart s.entries) 0

theorem schedAux_le (l : List (String × CacheEntry)) :
    ∀ c, List.Pairwise EntrySep l → (∀ p ∈ l, c ≤ p.2.start_page) →
    ∀ pr ∈ schedAux l c, pr.1 ≤ pr.2 := by
  induction l with
  | nil =>
    intro c _ _ pr hpr
    simp [schedAux] at hpr
  | cons p rest ih =>
    intro c hsep hcur pr hpr
    simp only [schedAux] at hpr
    rcases List.mem_cons.mp hpr with h | h
    · subst h
      exact hcur p (List.mem_cons_self p rest)
    · refine ih (c + p.2.num_pages) (List.pairwise_cons.mp hsep).2 ?_ pr h
      intro q hq
      have h1 := (List.pairwise_cons.mp hsep).1 q hq
      have h2 := hcur p (List.mem_cons_self p rest)
      unfold EntrySep at h1
      omega

/-- C5.  On a well-formed state, every relocation performed by the
defragmenter has its destination cursor at or below the old start page —
strictly below whenever the entry actually moves — and the read-then-write
copy returns exactly the source bytes, so the copy is never destructive
even when the byte ranges overlap. -/
theorem compaction_relocation_no_overlap (s : ServerState) (hwf : CompactWF s) :
    ∀ pr ∈ relocationSchedule s,
      (pr.1 ≠ pr.2 → pr.1 < pr.2) ∧
      (∀ m ds, readMem (writeMem m pr.1 (readMem m pr.2 ds)) pr.1 ds
          = readMem m pr.2 ds) := by
  intro pr hpr
  obtain ⟨hnd, hbnd, hdisj⟩ := hwf
  have hperm := sortByStart_perm s.entries
  have hposS : ∀ p ∈ sortByStart s.entries, 1 ≤ p.2.num_pages :=
    fun p hp => (hbnd p (hperm.mem_iff.mp hp)).1
  have hsepS : List.Pairwise EntrySep (sortByStart s.entries) :=
    sorted_entrySep _ (sortByStart_sorted s.entries)
      ((hperm.pairwise_iff (fun hxy => Or.symm hxy)).mpr hdisj) hposS
  have hle := schedAux_le (sortByStart s.entries) 0 hsepS
    (fun p _ => Nat.zero_le _) pr hpr
  refine ⟨fun hne => lt_of_le_of_ne hle hne, ?_⟩
  intro m ds
  have h := readMem_writeMem_self m pr.1 (readMem m pr.2 ds)
  rw [readMem_length] at h
  exact h

/-- A second live entry for the two-entry witness state. -/
def sampleEntryB : CacheEntry :=
  { key := "b", client_id := "o", start_page := 9, num_pages := 1, data_size := 40960,
    insertion_order := 1, visited := false, reference_bit := false, clock_position := 0 }

/-- A concrete two-entry state with holes (entries at `[5,7)` and
`[9,10)`), used to instantiate the compaction theorems. -/
def sampleState2 : ServerState :=
  { mem := fun a => a % 251,
    pageIsFree := fun _ => false,
    pageBlockStart := fun _ => 0,
    entries := [("a", sampleEntryA), ("b", sampleEntryB)],
    freeList := [],
    total_free_pages := 0,
    fifo_counter := 2 }

/-- Witness for C2 at the two-entry state. -/
theorem compaction_preserves_semantics_witness :
    CompactWF sampleState2 ∧
    ((∀ k e, lookupEntry sampleState2.entries k = some e →
      ∃ e2, lookupEntry (compactMemory sampleState2).entries k = some e2 ∧
        e2.key = e.key ∧ e2.client_id = e.client_id ∧
        e2.num_pages = e.num_pages ∧ e2.data_size = e.data_size ∧
        e2.insertion_order = e.insertion_order ∧ e2.visited = e.visited ∧
        e2.reference_bit = e.reference_bit ∧ e2.clock_position = e.clock_position ∧
        readMem (compactMemory sampleState2).mem e2.start_page e.data_size
          = readMem sampleState2.mem e.start_page e.data_size) ∧
    ((compactMemory sampleState2).freeList = [] ∨
      ∃ c, c < TOTAL_PAGES ∧
        (compactMemory sampleState2).freeList
          = [{ start_page := c, num_pages := TOTAL_PAGES - c }]) ∧
    (∀ k e2, lookupEntry (compactMemory sampleState2).entries k = some e2 →
      e2.start_page + e2.num_pages ≤ sumNp sampleState2.entries) ∧
    (∀ k1 e1 k2 e2 f1 f2, k1 ≠ k2 →
      lookupEntry sampleState2.entries k1 = some e1 →
      lookupEntry sampleState2.entries k2 = some e2 →
      lookupEntry (compactMemory sampleState2).entries k1 = some f1 →
      lookupEntry (compactMemory sampleState2).entries k2 = some f2 →
      e1.start_page < e2.start_page →
      f1.start_page + f1.num_pages ≤ f2.start_page)) :=
  ⟨by decide, compaction_preserves_semantics sampleState2 (by decide)⟩

/-- Witness for C5 at the two-entry state: the first scheduled relocation
moves the entry at page 5 to page 0. -/
theorem compaction_relocation_no_overlap_witness :
    CompactWF sampleState2 ∧
    (0, 5) ∈ relocationSchedule sampleState2 ∧
    ((0 : Nat) ≠ 5 → (0 : Nat) < 5) ∧
    (∀ m ds, readMem (writeMem m 0 (readMem m 5 ds)) 0 ds = readMem m 5 ds) :=
  ⟨by decide, by decide,
   (compaction_relocation_no_overlap sampleState2 (by decide) (0, 5) (by decide)).1,
   (compaction_relocation_no_overlap sampleState2 (by decide) (0, 5) (by decide)).2⟩

/-- Result kinds of the core add operation (spec §6 and §7). -/
inductive AddResult where
  | Ok
  | KeyExists
  | OutOfCapacity
  | PayloadTooLarge
deriving DecidableEq, Repr

/-- Modelled from the spec: `addKey` is declared in the header but defined
in the missing second implementation file.  Per spec §4.F and §7 it
computes the required page count, rejects a payload needing more than
`TOTAL_PAGES` pages as `PayloadTooLarge` (unsatisfiable even on an empty
arena, hence rejected before touching any state), rejects a duplicate key
as `KeyExists`, and otherwise allocates through the admission controller
and writes the value bytes, mapping allocation failure to
`OutOfCapacity`. -/
def addKey (evictFn : Nat → ServerState → ServerState × Bool) (s : ServerState)
    (key : String) (value : List Nat) (owner : String) : ServerState × AddResult :=
  if TOTAL_PAGES < calculateRequiredPages value.length then (s, AddResult.PayloadTooLarge)
  else if (lookupEntry s.entries key).isSome then (s, AddResult.KeyExists)
  else
    let r := allocatePages evictFn s key value.length owner
    if r.2 then
      match lookupEntry r.1.entries key with
      | some e => ({ r.1 with mem := writeMem r.1.mem e.start_page value }, AddResult.Ok)
      | none => (r.1, AddResult.OutOfCapacity)
    else (r.1, AddResult.OutOfCapacity)

/-- C9.  A request whose payload needs more than `TOTAL_PAGES` pages fails
with the distinct error `PayloadTooLarge` (never `OutOfCapacity`), leaves
the state unchanged, and is indeed unsatisfiable even on the empty arena:
the fresh state's free list has no block that fits it. -/
theorem payload_too_large (evictFn : Nat → ServerState → ServerState × Bool)
    (s : ServerState) (key owner : String) (value : List Nat)
    (h : TOTAL_PAGES < calculateRequiredPages value.length) :
    addKey evictFn s key value owner = (s, AddResult.PayloadTooLarge) ∧
    (addKey evictFn s key value owner).2 ≠ AddResult.OutOfCapacity ∧
    findBestFitBlock initState.freeList (calculateRequiredPages value.length) = none := by
  have h1 : addKey evictFn s key value owner = (s, AddResult.PayloadTooLarge) := by
    unfold addKey
    rw [if_pos h]
  refine ⟨h1, by rw [h1]; intro hx; exact AddResult.noConfusion hx, ?_⟩
  rw [findBestFitBlock_none_iff]
  intro b hb
  have hb2 : b = { start_page := 0, num_pages := TOTAL_PAGES } := by
    simpa [initState] using hb
  rw [hb2]
  exact h

/-- A payload of one byte more than the whole arena. -/
def hugeValue : List Nat := List.replicate (CACHE_SIZE + 1) 0

/-- Witness for C9 at the fresh state with a payload one byte larger than
the arena. -/
theorem payload_too_large_witness :
    TOTAL_PAGES < calculateRequiredPages hugeValue.length ∧
    (addKey noEvict initState "k" hugeValue "c" = (initState, AddResult.PayloadTooLarge) ∧
     (addKey noEvict initState "k" hugeValue "c").2 ≠ AddResult.OutOfCapacity ∧
     findBestFitBlock initState.freeList (calculateRequiredPages hugeValue.length) = none) := by
  have hlen : hugeValue.length = CACHE_SIZE + 1 := by
    simp [hugeValue]
  have h : TOTAL_PAGES < calculateRequiredPages hugeValue.length := by
    rw [hlen]
    decide
  exact ⟨h, payload_too_large noEvict initState "k" "c" hugeValue h⟩

/-- The page-count invariant on an entry list: every entry's `num_pages`
is `calculateRequiredPages` of its `data_size`, and is at least one
whenever the value holds at least one byte. -/
def EntryPagesInv (l : List (String × CacheEntry)) : Prop :=
  ∀ p ∈ l, p.2.num_pages = calculateRequiredPages p.2.data_size ∧
    (1 ≤ p.2.data_size → 1 ≤ p.2.num_pages)

theorem mem_insertEntry (l : List (String × CacheEntry)) (k : String) (e : CacheEntry) :
    ∀ q ∈ insertEntry l k e, q = (k, e) ∨ q ∈ l := by
  induction l with
  | nil =>
    intro q hq
    simp only [insertEntry, List.mem_singleton] at hq
    exact Or.inl hq
  | cons p rest ih =>
    intro q hq
    simp only [insertEntry] at hq
    by_cases hp : p.1 = k
    · rw [if_pos hp] at hq
      rcases List.mem_cons.mp hq with h | h
      · exact Or.inl h
      · exact Or.inr (List.mem_cons_of_mem _ h)
    · rw [if_neg hp] at hq
      rcases List.mem_cons.mp hq with h | h
      · exact Or.inr (h ▸ List.mem_cons_self p rest)
      · rcases ih q h with h2 | h2
        · exact Or.inl h2
        · exact Or.inr (List.mem_cons_of_mem _ h2)

theorem entryPagesInv_insert (l : List (String × CacheEntry)) (k : String) (e : CacheEntry)
    (h : EntryPagesInv l)
    (he : e.num_pages = calculateRequiredPages e.data_size ∧
      (1 ≤ e.data_size → 1 ≤ e.num_pages)) :
    EntryPagesInv (insertEntry l k e) := by
  intro q hq
  rcases mem_insertEntry l k e q hq with h2 | h2
  · rw [h2]
    exact he
  · exact h q h2

theorem compactFold_pagesInv (rem : List (String × CacheEntry)) :
    ∀ acc, EntryPagesInv acc.entries →
      (∀ p ∈ rem, p.2.num_pages = calculateRequiredPages p.2.data_size ∧
        (1 ≤ p.2.data_size → 1 ≤ p.2.num_pages)) →
      EntryPagesInv (rem.foldl compactStep acc).entries := by
  induction rem with
  | nil =>
    intro acc h _
    exact h
  | cons p rest ih =>
    intro acc hacc hrem
    show EntryPagesInv (rest.foldl compactStep (compactStep acc p)).entries
    refine ih (compactStep acc p) ?_ (fun q hq => hrem q (List.mem_cons_of_mem _ hq))
    rw [compactStep_entries]
    by_cases hmv : p.2.start_page ≠ acc.cursor
    · rw [if_pos hmv]
      exact entryPagesInv_insert _ _ _ hacc (hrem p (List.mem_cons_self p rest))
    · rw [if_neg hmv]
      exact hacc

theorem compactMemory_pagesInv (s : ServerState) (h : EntryPagesInv s.entries) :
    EntryPagesInv (compactMemory s).entries := by
  rw [compactMemory_entries]
  refine compactFold_pagesInv (sortByStart s.entries) _ h ?_
  intro p hp
  exact h p ((sortByStart_perm s.entries).mem_iff.mp hp)

theorem commitAlloc_pagesInv (s1 : ServerState) (i : Nat) (blk : FreeBlock) (ds : Nat)
    (key cid : String) (h : EntryPagesInv s1.entries) :
    EntryPagesInv (commitAlloc s1 i blk (calculateRequiredPages ds) key cid ds).entries := by
  refine entryPagesInv_insert _ _ _ h ⟨rfl, ?_⟩
  intro hds
  exact calculateRequiredPages_pos ds hds

theorem freePages_entries (s : ServerState) (key : String) :
    (freePages s key).entries = s.entries := by
  unfold freePages
  cases lookupEntry s.entries key <;> rfl

theorem allocatePages_pagesInv (evictFn : Nat → ServerState → ServerState × Bool)
    (hev : ∀ n t, EntryPagesInv t.entries → EntryPagesInv ((evictFn n t).1).entries)
    (s : ServerState) (key cid : String) (ds : Nat) (h : EntryPagesInv s.entries) :
    EntryPagesInv ((allocatePages evictFn s key ds cid).1).entries := by
  cases hfb : findBestFitBlock s.freeList (calculateRequiredPages ds) with
  | some ib =>
    simp only [allocatePages, hfb]
    exact commitAlloc_pagesInv s ib.1 ib.2 ds key cid h
  | none =>
    simp only [allocatePages, hfb]
    by_cases htf : calculateRequiredPages ds ≤ s.total_free_pages
    · rw [if_pos htf]
      have hc : EntryPagesInv (compactMemory s).entries := compactMemory_pagesInv s h
      by_cases hok : (defragment s (calculateRequiredPages ds)).2 = true
      · rw [if_pos hok]
        rw [defragment_fst]
        cases hfb2 : findBestFitBlock (compactMemory s).freeList
            (calculateRequiredPages ds) with
        | none => simp only [hfb2]; exact hc
        | some ib2 => simp only [hfb2]; exact commitAlloc_pagesInv _ ib2.1 ib2.2 ds key cid hc
      · rw [if_neg hok]
        rw [defragment_fst]
        have hevc : EntryPagesInv ((evictFn (calculateRequiredPages ds)
            (compactMemory s)).1).entries := hev _ _ hc
        by_cases hevb : (evictFn (calculateRequiredPages ds) (compactMemory s)).2 = true
        · rw [if_pos hevb]
          cases hfb3 : findBestFitBlock (evictFn (calculateRequiredPages ds)
              (compactMemory s)).1.freeList (calculateRequiredPages ds) with
          | none => simp only [hfb3]; exact hevc
          | some ib3 =>
            simp only [hfb3]
            exact commitAlloc_pagesInv _ ib3.1 ib3.2 ds key cid hevc
        · rw [if_neg hevb]
          exact hevc
    · rw [if_neg htf]
      have hevc : EntryPagesInv ((evictFn (calculateRequiredPages ds) s).1).entries :=
        hev _ _ h
      by_cases hevb : (evictFn (calculateRequiredPages ds) s).2 = true
      · rw [if_pos hevb]
        cases hfb3 : findBestFitBlock (evictFn (calculateRequiredPages ds) s).1.freeList
            (calculateRequiredPages ds) with
        | none => simp only [hfb3]; exact hevc
        | some ib3 =>
          simp only [hfb3]
          exact commitAlloc_pagesInv _ ib3.1 ib3.2 ds key cid hevc
      · rw [if_neg hevb]
        exact hevc

theorem calculateRequiredPages_ceil (d : Nat) :
    d ≤ calculateRequiredPages d * PAGE_SIZE ∧
    calculateRequiredPages d * PAGE_SIZE < d + PAGE_SIZE := by
  unfold calculateRequiredPages PAGE_SIZE
  omega

/-- C8 (amended).  `calculate_required_pages` is the exact ceiling of
`data_size / PAGE_SIZE` (characterised order-theoretically), is at least
one for every payload of at least one byte but zero for a zero-byte
payload, and the per-entry invariant `num_pages =
calculate_required_pages(data_size)` (with `num_pages ≥ 1` whenever
`data_size ≥ 1`) is preserved by allocation — for any eviction procedure
preserving it — by freeing, and within allocation by compaction. -/
theorem pages_invariant_amended :
    (∀ d, d ≤ calculateRequiredPages d * PAGE_SIZE ∧
      calculateRequiredPages d * PAGE_SIZE < d + PAGE_SIZE) ∧
    (∀ d, 1 ≤ d → 1 ≤ calculateRequiredPages d) ∧
    calculateRequiredPages 0 = 0 ∧
    (∀ (evictFn : Nat → ServerState → ServerState × Bool),
      (∀ n t, EntryPagesInv t.entries → EntryPagesInv ((evictFn n t).1).entries) →
      ∀ s key cid ds, EntryPagesInv s.entries →
        EntryPagesInv ((allocatePages evictFn s key ds cid).1).entries) ∧
    (∀ s key, EntryPagesInv s.entries → EntryPagesInv (freePages s key).entries) := by
  refine ⟨calculateRequiredPages_ceil, calculateRequiredPages_pos, by decide, ?_, ?_⟩
  · intro evictFn hev s key cid ds h
    exact allocatePages_pagesInv evictFn hev s key cid ds h
  · intro s key h
    rw [freePages_entries]
    exact h

/-- Witness for the amended C8: the invariant pushed through a one-page
allocation on the fresh state. -/
theorem pages_invariant_amended_witness :
    (1 ≤ (40960 : Nat) ∧ 1 ≤ calculateRequiredPages 40960) ∧
    (∀ n t, EntryPagesInv t.entries → EntryPagesInv ((noEvict n t).1).entries) ∧
    EntryPagesInv initState.entries ∧
    EntryPagesInv ((allocatePages noEvict initState "k" 40960 "c").1).entries :=
  ⟨⟨by decide, pages_invariant_amended.2.1 40960 (by decide)⟩,
   fun n t ht => ht,
   fun p hp => absurd hp (List.not_mem_nil p),
   pages_invariant_amended.2.2.2.1 noEvict (fun n t ht => ht) initState "k" "c" 40960
     (fun p hp => absurd hp (List.not_mem_nil p))⟩

/-- C1.  Accounting invariant: refuted by the code.  Allocating one page
(40960 bytes) from the fresh cache goes through the split branch of
`splitBlock`, which updates the block in place but never decrements
`total_free_pages`: afterwards the counter still reads 2560 while the free
list extents sum to 2559 and one page is live, so both halves of the
claimed invariant fail. -/
theorem splitBlock_accounting_bug :
    (allocatePages noEvict initState "k" PAGE_SIZE "c").2 = true ∧
    (allocatePages noEvict initState "k" PAGE_SIZE "c").1.total_free_pages = TOTAL_PAGES ∧
    sumFree (allocatePages noEvict initState "k" PAGE_SIZE "c").1.freeList = TOTAL_PAGES - 1 ∧
    sumNp (allocatePages noEvict initState "k" PAGE_SIZE "c").1.entries = 1 ∧
    ¬ sumFree (allocatePages noEvict initState "k" PAGE_SIZE "c").1.freeList
        = (allocatePages noEvict initState "k" PAGE_SIZE "c").1.total_free_pages ∧
    ¬ ((allocatePages noEvict initState "k" PAGE_SIZE "c").1.total_free_pages
        + sumNp (allocatePages noEvict initState "k" PAGE_SIZE "c").1.entries = TOTAL_PAGES) := by
  decide

/-- C8 counterexample.  A zero-byte value occupies zero pages, not at
least one: `calculateRequiredPages 0 = 0`, and a successful zero-byte
allocation creates a live entry with `num_pages = 0`, refuting
`num_pages ≥ 1` for every live entry. -/
theorem zero_byte_entry_counterexample :
    calculateRequiredPages 0 = 0 ∧
    (allocatePages noEvict initState "z" 0 "c").2 = true ∧
    lookupEntry (allocatePages noEvict initState "z" 0 "c").1.entries "z"
      = some { key := "z", client_id := "c", start_page := 0, num_pages := 0, data_size := 0,
               insertion_order := 0, visited := false, reference_bit := false,
               clock_position := 0 } ∧
    ¬ (∀ k e, lookupEntry (allocatePages noEvict initState "z" 0 "c").1.entries k = some e →
        1 ≤ e.num_pages) := by
  refine ⟨by decide, by decide, by decide, fun h => ?_⟩
  have h0 := h "z"
    { key := "z", client_id := "c", start_page := 0, num_pages := 0, data_size := 0,
      insertion_order := 0, visited := false, reference_bit := false, clock_position := 0 }
    (by decide)
  exact absurd h0 (by decide)
